import Mathlib

/-!
Verification of the nlglib constituent-tree data model and the
referring-expression generation (REG) algorithm.

The definitions below are a shallow embedding of the Python sources:

* `src/nlglib/structures.py` — the `Element` hierarchy (`Element`, `String`,
  `Word`, `Var`, `Coordination`, `Phrase`, `NounPhrase`, `VerbPhrase`,
  `PrepositionalPhrase`, `AdjectivePhrase`, `AdverbPhrase`, `Clause`),
  their `__eq__`, `__hash__`, `__deepcopy__`, `constituents` methods;
* `src/nlglib/microplanning/visitors.py` — `replace_element`;
* `src/nlglib/reg.py` — `generate_ref_exp`, `_do_initial_reference`,
  `_do_repeated_reference` and the pronoun-case selection inside
  `optimise_ref_exp`;
* `src/nlglib/structures/macroplanning.py` — `PredicateMsg.value_for` and
  `SignatureError`.

Modelling conventions:

* Python objects become values of the inductive type `Elem`; the mutable
  feature dictionary becomes an association list without duplicate keys
  (`set_feature` keeps that invariant), and dictionary equality is the
  key-wise comparison `featsEq`.
* Every node carries an `EMeta` record holding the `id` attribute, the
  feature map, the cached `hash` attribute (initially `-1`), and `tok`,
  a token standing for the Python object identity (`id()`); structural
  equality (`pyEq`, the translation of `__eq__`) ignores `tok` and the
  cached hash, exactly as the source does.  Distinct live objects are
  assumed to carry distinct `tok` values wherever identity matters.
* The `parent` back-reference is not representable in a tree value and no
  claim below depends on it, so it is dropped.
* CPython randomises primitive string hashes per process; `pyStrHash` is a
  deterministic stand-in.  Only success or failure of hashing, and which
  fields feed the hash, matter to the claims.
* In-place mutation becomes state passing: functions that mutate return the
  new value (and the new context where the registry is touched).
-/

/-- The `id`, feature-map, cached-`hash` and object-identity data carried by
every `Element` (`Element.__init__` sets `id = 0`, `hash = -1`). -/
structure EMeta where
  id : Int
  features : List (String × String)
  hash : Int
  tok : Nat
deriving DecidableEq, Repr

/-- The default metadata created by `Element.__init__`: `id = 0`, empty
feature dict, cached hash `-1`; identity token 0. -/
def meta0 : EMeta := ⟨0, [], -1, 0⟩

/-- Metadata with a chosen feature dict, as produced by
`Element.__init__(type, features)`. -/
def metaF (fs : List (String × String)) : EMeta := ⟨0, fs, -1, 0⟩

/-- Metadata with a chosen feature dict and identity token. -/
def metaFT (fs : List (String × String)) (t : Nat) : EMeta := ⟨0, fs, -1, t⟩

/-- The concrete `_type` tags a `Phrase` instance can carry in the source:
`PHRASE` itself (class `Phrase`) or one of the subclasses `VerbPhrase`,
`PrepositionalPhrase`, `AdjectivePhrase`, `AdverbPhrase` that add no slots.
`NounPhrase` (which adds the `spec` slot) and `Clause` are separate
constructors of `Elem`. -/
inductive PType where
  | generic
  | verb
  | prep
  | adj
  | adv
deriving DecidableEq, Repr

/-- The element hierarchy of `structures.py` as a tagged tree.

* `element` — a bare `Element` instance (the falsy empty placeholder);
* `string v m` — `String(v)`;
* `word w pos base m` — `Word(w, pos, ..., base)`;
* `var i value m` — `Var(i, value)`; the constructor overwrites the
  `Element` `id` attribute with `i`, so `i` plays that role here;
* `coordination coords conj preMods compls postMods m` — `Coordination`;
* `phrase pt frontMods preMods head compls postMods m` — a `Phrase`
  (or `VerbPhrase`/`PrepositionalPhrase`/`AdjectivePhrase`/`AdverbPhrase`
  depending on `pt`);
* `nounPhrase spec frontMods preMods head compls postMods m` — `NounPhrase`;
* `clause frontMods preMods subj vp compls postMods m` — `Clause`. -/
inductive Elem where
  | element : EMeta → Elem
  | string : String → EMeta → Elem
  | word : String → String → String → EMeta → Elem
  | var : String → Elem → EMeta → Elem
  | coordination : List Elem → String → List Elem → List Elem → List Elem → EMeta → Elem
  | phrase : PType → List Elem → List Elem → Elem → List Elem → List Elem → EMeta → Elem
  | nounPhrase : Elem → List Elem → List Elem → Elem → List Elem → List Elem → EMeta → Elem
  | clause : List Elem → List Elem → Elem → Elem → List Elem → List Elem → EMeta → Elem

/-- The metadata record of a node. -/
def metaOf : Elem → EMeta
  | .element m => m
  | .string _ m => m
  | .word _ _ _ m => m
  | .var _ _ m => m
  | .coordination _ _ _ _ _ m => m
  | .phrase _ _ _ _ _ _ m => m
  | .nounPhrase _ _ _ _ _ _ m => m
  | .clause _ _ _ _ _ _ m => m

/-- The feature dictionary of a node (`self.features`). -/
def featuresOf (e : Elem) : List (String × String) := (metaOf e).features

/-- The identity token of a node (model of the CPython `id()` of the
object). -/
def tokOf (e : Elem) : Nat := (metaOf e).tok

/-- Dictionary read: first binding of the key, if any
(`self.features.get(name)`). -/
def lookupF : List (String × String) → String → Option String
  | [], _ => none
  | kv :: rest, k => if kv.1 = k then some kv.2 else lookupF rest k

/-- Dictionary write (`self.features[feature] = value`): overwrite the
binding in place if the key exists, else append. -/
def insertFeat : List (String × String) → String → String → List (String × String)
  | [], k, v => [(k, v)]
  | kv :: rest, k, v => if kv.1 = k then (k, v) :: rest else kv :: insertFeat rest k v

/-- Dictionary bulk update (`a.update(b)`): write every binding of `b`
into `a`. -/
def updateFeats (a b : List (String × String)) : List (String × String) :=
  b.foldl (fun acc kv => insertFeat acc kv.1 kv.2) a

/-- One-sided dictionary inclusion, used to define dictionary equality. -/
def featsSub (a b : List (String × String)) : Bool :=
  a.all (fun kv => lookupF b kv.1 == some kv.2)

/-- Python dictionary equality (`self.features == other.features`): the
same keys bound to the same values, irrespective of insertion order. -/
def featsEq (a b : List (String × String)) : Bool :=
  featsSub a b && featsSub b a

mutual
/-- Translation of the `__eq__` chain of `structures.py`:
`Element.__eq__` compares `_type`, `id` and the feature dict; `String` adds
`value`; `Word` adds `word` and `pos` (not `base`); `Var` compares its `id`,
its `value` and the feature dict; `Coordination` compares `coords`, `conj`
and the `Element` part (not its modifier lists); `Phrase` compares `_type`,
all five slot lists and the `Element` part; `NounPhrase` additionally
compares `spec` and `head`; `Clause` compares `pre_modifiers`, `subj`,
`vp`, `complements`, `post_modifiers` and the `Element` part (not
`front_modifiers`).  Mismatched classes compare unequal.  The object
identity `tok` and the cached `hash` are not compared. -/
def pyEq : Elem → Elem → Bool
  | .element m, .element m2 =>
      m.id == m2.id && featsEq m.features m2.features
  | .string v m, .string v2 m2 =>
      v == v2 && m.id == m2.id && featsEq m.features m2.features
  | .word w p _ m, .word w2 p2 _ m2 =>
      w == w2 && p == p2 && m.id == m2.id && featsEq m.features m2.features
  | .var i vl m, .var i2 vl2 m2 =>
      i == i2 && pyEq vl vl2 && featsEq m.features m2.features
  | .coordination co cj _ _ _ m, .coordination co2 cj2 _ _ _ m2 =>
      pyEqList co co2 && cj == cj2 && m.id == m2.id && featsEq m.features m2.features
  | .phrase pt fm pm hd c po m, .phrase pt2 fm2 pm2 hd2 c2 po2 m2 =>
      pt == pt2 && pyEqList fm fm2 && pyEqList pm pm2 && pyEq hd hd2 &&
      pyEqList c c2 && pyEqList po po2 && m.id == m2.id && featsEq m.features m2.features
  | .nounPhrase sp fm pm hd c po m, .nounPhrase sp2 fm2 pm2 hd2 c2 po2 m2 =>
      pyEq sp sp2 && pyEq hd hd2 && pyEqList fm fm2 && pyEqList pm pm2 &&
      pyEqList c c2 && pyEqList po po2 && m.id == m2.id && featsEq m.features m2.features
  | .clause _ pm sb vp c po m, .clause _ pm2 sb2 vp2 c2 po2 m2 =>
      pyEqList pm pm2 && pyEq sb sb2 && pyEq vp vp2 && pyEqList c c2 &&
      pyEqList po po2 && m.id == m2.id && featsEq m.features m2.features
  | _, _ => false

/-- Pairwise list equality (Python `list.__eq__` over element lists). -/
def pyEqList : List Elem → List Elem → Bool
  | [], [] => true
  | a :: as_, b :: bs => pyEq a b && pyEqList as_ bs
  | _, _ => false
end

/-- Python truthiness of an element: a bare `Element` is falsy, a `String`
is truthy iff non-empty, every other variant is truthy (`__bool__`). -/
def elemBool : Elem → Bool
  | .element _ => false
  | .string v _ => !v.isEmpty
  | _ => true

/-- The `.string` property: a `String` returns its value, a `Word` its
word, a `Var` the string of its (truthy) value, a `Coordination` the string
of its first coordinate, and everything else `None`.  (An empty coordinate
list raises `IndexError` in Python; no claim exercises that, and it is
mapped to `none` here.) -/
def elemString : Elem → Option String
  | .element _ => none
  | .string v _ => some v
  | .word w _ _ _ => some w
  | .var _ vl _ => if elemBool vl then elemString vl else none
  | .coordination co _ _ _ _ _ =>
      match co with
      | [] => none
      | c :: _ => elemString c
  | .phrase _ _ _ _ _ _ _ => none
  | .nounPhrase _ _ _ _ _ _ _ => none
  | .clause _ _ _ _ _ _ _ => none

/-- A bare `Element` placeholder, `Element()`. -/
def blankElem : Elem := .element meta0

/-- `set_feature` on a node: write one feature. -/
def setFeature (e : Elem) (k v : String) : Elem :=
  match e with
  | .element m => .element ⟨m.id, insertFeat m.features k v, m.hash, m.tok⟩
  | .string s m => .string s ⟨m.id, insertFeat m.features k v, m.hash, m.tok⟩
  | .word w p b m => .word w p b ⟨m.id, insertFeat m.features k v, m.hash, m.tok⟩
  | .var i vl m => .var i vl ⟨m.id, insertFeat m.features k v, m.hash, m.tok⟩
  | .coordination co cj pm c po m =>
      .coordination co cj pm c po ⟨m.id, insertFeat m.features k v, m.hash, m.tok⟩
  | .phrase pt fm pm hd c po m =>
      .phrase pt fm pm hd c po ⟨m.id, insertFeat m.features k v, m.hash, m.tok⟩
  | .nounPhrase sp fm pm hd c po m =>
      .nounPhrase sp fm pm hd c po ⟨m.id, insertFeat m.features k v, m.hash, m.tok⟩
  | .clause fm pm sb vp c po m =>
      .clause fm pm sb vp c po ⟨m.id, insertFeat m.features k v, m.hash, m.tok⟩

/-- `has_feature(feature, value)`: the feature is present with the given
value. -/
def hasFeatureB (e : Elem) (k v : String) : Bool :=
  lookupF (featuresOf e) k == some v

/-- `Word(word, pos, features)`: stores the word, the part of speech, the
base form (defaulting to the word), and writes the feature `cat := pos`. -/
def mkWord (w pos : String) (fs : List (String × String)) : Elem :=
  .word w pos w ⟨0, insertFeat fs "cat" pos, -1, 0⟩

/-- `String(val, features)`. -/
def mkString (v : String) (fs : List (String × String)) : Elem :=
  .string v ⟨0, fs, -1, 0⟩

/-- `NounPhrase(head, spec, features)`: `set_spec` replaces an absent
specifier by `Element()`, `set_head` replaces an absent head by `Element()`
and merges the head features into the phrase features
(`self.features.update(self.head.features)`).  All modifier lists start
empty. -/
def mkNounPhrase (head spec : Option Elem) (fs : List (String × String)) : Elem :=
  let hd := head.getD blankElem
  .nounPhrase (spec.getD blankElem) [] [] hd [] []
    ⟨0, updateFeats fs (featuresOf hd), -1, 0⟩

/-- `VerbPhrase(head, *compl, features)`: like `mkNounPhrase` without a
specifier; the complements are those passed to the constructor. -/
def mkVerbPhrase (head : Option Elem) (compls : List Elem) (fs : List (String × String)) : Elem :=
  let hd := head.getD blankElem
  .phrase .verb [] [] hd compls []
    ⟨0, updateFeats fs (featuresOf hd), -1, 0⟩

/-- `add_complement(mod)` on a phrase-like node: append to the complement
list.  (The `Coordination` variant of the source promotes its last
coordinate first; no claim exercises it, so coordinations are returned
unchanged.) -/
def addComplement (e c : Elem) : Elem :=
  match e with
  | .phrase pt fm pm hd cs po m => .phrase pt fm pm hd (cs ++ [c]) po m
  | .nounPhrase sp fm pm hd cs po m => .nounPhrase sp fm pm hd (cs ++ [c]) po m
  | .clause fm pm sb vp cs po m => .clause fm pm sb vp (cs ++ [c]) po m
  | other => other

/-- Direct assignment `np.spec = x` as performed by the REG code on
`NounPhrase` results; other variants have no `spec` attribute and are
never the target of this assignment. -/
def setSpecRaw (e sp : Elem) : Elem :=
  match e with
  | .nounPhrase _ fm pm hd c po m => .nounPhrase sp fm pm hd c po m
  | other => other

/-- The specifier slot of a `NounPhrase`, if the node is one. -/
def specOf : Elem → Option Elem
  | .nounPhrase sp _ _ _ _ _ _ => some sp
  | _ => none

/-- The complement list of a phrase-like node. -/
def complementsOf : Elem → List Elem
  | .coordination _ _ _ c _ _ => c
  | .phrase _ _ _ _ c _ _ => c
  | .nounPhrase _ _ _ _ c _ _ => c
  | .clause _ _ _ _ c _ _ => c
  | _ => []

/-- The determiner word of a noun phrase: the specifier when it is a
`Word` with part of speech `DETERMINER`. -/
def determinerOf (e : Elem) : Option String :=
  match specOf e with
  | some (.word w p _ _) => if p = "DETERMINER" then some w else none
  | _ => none

mutual
/-- `raise_to_np`: a `Coordination` has its coordinates raised, a `String`
or `Word` is promoted to a `NounPhrase` head, anything else is returned
unchanged. -/
def raiseToNp : Elem → Elem
  | .coordination co cj pm c po m => .coordination (raiseListNp co) cj pm c po m
  | .string v m => mkNounPhrase (some (.string v m)) none []
  | .word w p b m => mkNounPhrase (some (.word w p b m)) none []
  | e => e

/-- Coordinate-wise `raise_to_np`. -/
def raiseListNp : List Elem → List Elem
  | [] => []
  | x :: xs => raiseToNp x :: raiseListNp xs
end

mutual
/-- `raise_to_vp`: the verb-phrase counterpart of `raise_to_np`. -/
def raiseToVp : Elem → Elem
  | .coordination co cj pm c po m => .coordination (raiseListVp co) cj pm c po m
  | .string v m => mkVerbPhrase (some (.string v m)) [] []
  | .word w p b m => mkVerbPhrase (some (.word w p b m)) [] []
  | e => e

/-- Coordinate-wise `raise_to_vp`. -/
def raiseListVp : List Elem → List Elem
  | [] => []
  | x :: xs => raiseToVp x :: raiseListVp xs
end

/-- `Clause.set_subj`: a falsy subject (absent, bare `Element`, empty
`String`) is replaced by a fresh `Element()`. -/
def setSubjVal : Option Elem → Elem
  | none => blankElem
  | some e => if elemBool e then e else blankElem

/-- `Clause.set_vp`: the predicate is stored as given (defaulting to
`Element()`). -/
def setVpVal : Option Elem → Elem
  | none => blankElem
  | some e => e

/-- `Clause(subj, vp, features)`: the subject is passed through
`raise_to_np` then `set_subj`, the predicate through `raise_to_vp` then
`set_vp`; modifier and complement lists start empty. -/
def mkClause (subj vp : Option Elem) (fs : List (String × String)) : Elem :=
  .clause [] [] (setSubjVal (subj.map raiseToNp)) (setVpVal (vp.map raiseToVp)) [] []
    ⟨0, fs, -1, 0⟩

mutual
/-- Translation of the `__deepcopy__` methods.

* `Element`, `String`, `Word`, `Var` copy all compared data and preserve
  both the `id` attribute and the cached `hash`; `Var` shares its value
  object (the source passes `self.value` to the constructor uncopied);
* `Coordination.__deepcopy__` rebuilds through the constructor, deep-copies
  the coordinates but abandons `pre_modifiers`, `complements` and
  `post_modifiers`, and does not carry the cached hash over;
* a plain `Phrase` deep-copies all five slot lists (fresh cached hash);
* `VerbPhrase`, `PrepositionalPhrase`, `AdjectivePhrase` and `AdverbPhrase`
  rebuild from the copied head, re-merge the head features (`set_head`),
  copy only the complement list, and preserve the cached hash;
* `NounPhrase` rebuilds from the copied head and specifier only: all four
  modifier and complement lists are abandoned; cached hash preserved;
* `Clause` rebuilds through the constructor (so the copied subject and
  predicate pass through `raise_to_np`, `set_subj`, `raise_to_vp`,
  `set_vp`) and deep-copies all four lists; fresh cached hash.

The copy is a fresh object, recorded here with identity token 0. -/
def deepcopy : Elem → Elem
  | .element m => .element ⟨m.id, m.features, m.hash, 0⟩
  | .string v m => .string v ⟨m.id, m.features, m.hash, 0⟩
  | .word w p b m => .word w p b ⟨m.id, insertFeat m.features "cat" p, m.hash, 0⟩
  | .var i vl m => .var i vl ⟨m.id, m.features, m.hash, 0⟩
  | .coordination co cj _ _ _ m =>
      .coordination (deepcopyList co) cj [] [] [] ⟨m.id, insertFeat m.features "conj" cj, -1, 0⟩
  | .phrase pt fm pm hd c po m =>
      match pt with
      | .generic =>
          .phrase .generic (deepcopyList fm) (deepcopyList pm) (deepcopy hd)
            (deepcopyList c) (deepcopyList po) ⟨m.id, m.features, -1, 0⟩
      | pt2 =>
          let hd2 := deepcopy hd
          .phrase pt2 [] [] hd2 (deepcopyList c) []
            ⟨m.id, updateFeats m.features (featuresOf hd2), m.hash, 0⟩
  | .nounPhrase sp _ _ hd _ _ m =>
      let hd2 := deepcopy hd
      .nounPhrase (deepcopy sp) [] [] hd2 [] []
        ⟨m.id, updateFeats m.features (featuresOf hd2), m.hash, 0⟩
  | .clause fm pm sb vp c po m =>
      .clause (deepcopyList fm) (deepcopyList pm)
        (setSubjVal (some (raiseToNp (deepcopy sb))))
        (setVpVal (some (raiseToVp (deepcopy vp))))
        (deepcopyList c) (deepcopyList po) ⟨m.id, m.features, -1, 0⟩

/-- Element-wise deep copy of a slot list (`copy.deepcopy` on a list). -/
def deepcopyList : List Elem → List Elem
  | [] => []
  | x :: xs => deepcopy x :: deepcopyList xs
end

/-- The two ways hashing a composite element dies in the source:
`Phrase.__hash__` and `Coordination.__hash__` are `assert False`
(the `UnsupportedOperation` kind of the specification taxonomy), while
`NounPhrase` and `Clause` define `__eq__` without `__hash__`, which makes
Python set `__hash__ = None` and raise `TypeError: unhashable type`. -/
inductive HashErr where
  | unsupportedOperation
  | unhashableType
deriving DecidableEq, Repr

/-- Deterministic stand-in for the (per-process randomised) CPython string
hash. -/
def pyStrHash (s : String) : Nat :=
  s.foldl (fun a c => a * 31 + c.toNat) 7

/-- Hash of the feature dict as computed by `Element.__hash__`:
`hash(tuple(['k:v'.format(k, v) for k, v in self.features.items()]))`.
The format string has no placeholders, so every entry contributes the
constant string `k:v`; only the number of features matters. -/
def featsHash (fs : List (String × String)) : Nat :=
  (fs.map (fun _ => pyStrHash "k:v")).foldl (fun a h => a * 1000003 + h) 3

/-- `Element.__hash__` body: `hash(self.id) ^ hash(features tuple)`. -/
def elementHash (m : EMeta) : Nat :=
  m.id.natAbs ^^^ featsHash m.features

/-- Translation of the `__hash__` methods: `Element`, `String`, `Word`
succeed; `Var` hashes `hash(self.id) & hash(self.value)` on top of the
`Element` hash (where the `id` attribute is the var id), so it fails
whenever hashing its value fails; `Phrase` (hence `VerbPhrase`,
`PrepositionalPhrase`, `AdjectivePhrase`, `AdverbPhrase`) and
`Coordination` hit `assert False`; `NounPhrase` and `Clause` define
`__eq__` but no `__hash__`, so Python makes them unhashable. -/
def pyHash : Elem → Except HashErr Nat
  | .element m => .ok (elementHash m)
  | .string v m => .ok ((11 * elementHash m) ^^^ pyStrHash v)
  | .word w p _ m => .ok ((11 * elementHash m) ^^^ (pyStrHash p ^^^ pyStrHash w))
  | .var i vl m =>
      match pyHash vl with
      | .error e => .error e
      | .ok hv => .ok ((11 * (pyStrHash i ^^^ featsHash m.features)) ^^^ (pyStrHash i &&& hv))
  | .coordination _ _ _ _ _ _ => .error .unsupportedOperation
  | .phrase _ _ _ _ _ _ _ => .error .unsupportedOperation
  | .nounPhrase _ _ _ _ _ _ _ => .error .unhashableType
  | .clause _ _ _ _ _ _ _ => .error .unhashableType

mutual
/-- Nesting depth of a node, used as fuel for the traversal translation:
leaves have depth 1 (a `Var` never exposes its value to the traversal),
composites one more than their deepest slot. -/
def depth : Elem → Nat
  | .element _ => 1
  | .string _ _ => 1
  | .word _ _ _ _ => 1
  | .var _ _ _ => 1
  | .coordination co _ pm c po _ =>
      max (depthL co) (max (depthL pm) (max (depthL c) (depthL po))) + 1
  | .phrase _ fm pm hd c po _ =>
      max (depthL fm) (max (depthL pm) (max (depth hd) (max (depthL c) (depthL po)))) + 1
  | .nounPhrase sp fm pm hd c po _ =>
      max (depth sp) (max (depthL fm) (max (depthL pm) (max (depth hd) (max (depthL c) (depthL po))))) + 1
  | .clause fm pm sb vp c po _ =>
      max (depthL fm) (max (depthL pm) (max (depth sb) (max (depth vp) (max (depthL c) (depthL po))))) + 1

/-- Depth of the deepest element of a list. -/
def depthL : List Elem → Nat
  | [] => 0
  | x :: xs => max (depth x) (depthL xs)
end

/-- Fuel-indexed translation of the `constituents()` generators.  With
enough fuel (`depth e` suffices, see `consF_mem_iff_nodes`) it produces
exactly the yielded sequence:

* `Element.constituents` is empty; `String`, `Word` and `Var` yield
  themselves only;
* `Coordination` yields itself, then each coordinate expanded once
  (`yield from c.constituents()`);
* `Phrase` yields itself, then its front-modifiers, pre-modifiers, head,
  complements and post-modifiers, where each slot element `o` is expanded
  through the double loop
  `for x in o.constituents(): yield from x.constituents()`;
* `NounPhrase` yields itself, then the same double expansion of its
  specifier, then the `Phrase` slots;
* `Clause` yields itself, its pre-modifiers (double expansion), its
  subject and predicate (single expansion), its complements and
  post-modifiers (double expansion); front-modifiers are not visited. -/
def consF : Nat → Elem → List Elem
  | 0, _ => []
  | f + 1, e =>
    match e with
    | .element _ => []
    | .string v m => [.string v m]
    | .word w p b m => [.word w p b m]
    | .var i vl m => [.var i vl m]
    | .coordination co cj pm c po m =>
        .coordination co cj pm c po m :: co.flatMap (fun o => consF f o)
    | .phrase pt fm pm hd c po m =>
        .phrase pt fm pm hd c po m ::
          (fm.flatMap (fun o => (consF f o).flatMap (fun x => consF f x)) ++
           pm.flatMap (fun o => (consF f o).flatMap (fun x => consF f x)) ++
           (consF f hd).flatMap (fun x => consF f x) ++
           c.flatMap (fun o => (consF f o).flatMap (fun x => consF f x)) ++
           po.flatMap (fun o => (consF f o).flatMap (fun x => consF f x)))
    | .nounPhrase sp fm pm hd c po m =>
        .nounPhrase sp fm pm hd c po m ::
          ((consF f sp).flatMap (fun x => consF f x) ++
           fm.flatMap (fun o => (consF f o).flatMap (fun x => consF f x)) ++
           pm.flatMap (fun o => (consF f o).flatMap (fun x => consF f x)) ++
           (consF f hd).flatMap (fun x => consF f x) ++
           c.flatMap (fun o => (consF f o).flatMap (fun x => consF f x)) ++
           po.flatMap (fun o => (consF f o).flatMap (fun x => consF f x)))
    | .clause fm pm sb vp c po m =>
        .clause fm pm sb vp c po m ::
          (pm.flatMap (fun o => (consF f o).flatMap (fun x => consF f x)) ++
           consF f sb ++
           consF f vp ++
           c.flatMap (fun o => (consF f o).flatMap (fun x => consF f x)) ++
           po.flatMap (fun o => (consF f o).flatMap (fun x => consF f x)))

/-- The `constituents()` sequence of a node. -/
def constituents (e : Elem) : List Elem := consF (depth e) e

mutual
/-- The nodes of the subtree that the per-variant traversal contract is
about: the element itself followed by the nodes of every slot the variant
yields from (empty placeholders are not nodes, a `Clause` does not expose
its front-modifiers, a `Var` does not expose its value).  This is the
specification-side subtree used to state what `constituents` covers. -/
def nodes : Elem → List Elem
  | .element _ => []
  | .string v m => [.string v m]
  | .word w p b m => [.word w p b m]
  | .var i vl m => [.var i vl m]
  | .coordination co cj pm c po m =>
      .coordination co cj pm c po m :: nodesL co
  | .phrase pt fm pm hd c po m =>
      .phrase pt fm pm hd c po m ::
        (nodesL fm ++ nodesL pm ++ nodes hd ++ nodesL c ++ nodesL po)
  | .nounPhrase sp fm pm hd c po m =>
      .nounPhrase sp fm pm hd c po m ::
        (nodes sp ++ nodesL fm ++ nodesL pm ++ nodes hd ++ nodesL c ++ nodesL po)
  | .clause fm pm sb vp c po m =>
      .clause fm pm sb vp c po m ::
        (nodesL pm ++ nodes sb ++ nodes vp ++ nodesL c ++ nodesL po)

/-- Subtree nodes of every element of a slot list. -/
def nodesL : List Elem → List Elem
  | [] => []
  | x :: xs => nodes x ++ nodesL xs
end

mutual
/-- The recursive body of `replace_element` (visitors.py) below its
top-level `sent == elt` test, as a partial rewrite: `some e2` when a match
was found and replaced (the source mutates in place and returns `True`),
`none` when no scanned slot matched (the source returns `False` leaving
the tree untouched).  The recursive call `replace_element(o, elt,
replacement)` of the source re-tests `o == elt` first, but every call site
only recurses after that very test failed, so the callee shortcut never
fires and the recursion is expressed directly on the body.  The claims
quantify over a present replacement, so the `replacement is None` deletion
branches are not taken here.

Scan order, as in the source: a `Clause` tries its subject then its
predicate (only those); a `Coordination` its coordinates in forward order;
a `Phrase` its post-modifiers, then its complements (both in reverse index
order, recursing into each element), then its head — compared at top level
only, the source never descends into the head subtree — then its
pre-modifiers (reverse index order, recursing); a `NounPhrase` finally
compares its specifier, again at top level only.  Front-modifier lists are
never scanned.  The source reaches the modifier
lists through the attribute names `postmodifiers`, `premodifiers`, which
`structures.py` does not define; the lexicon feature-constant package that
`__getattr__` would consult is not part of the sources, so, modelled from
the spec (section 4.2), those aliases denote the `post_modifiers` and
`pre_modifiers` slot lists. -/
def replaceBody (t r : Elem) : Elem → Option Elem
  | .element _ => none
  | .string _ _ => none
  | .word _ _ _ _ => none
  | .var _ _ _ => none
  | .clause fm pm sb vp c po m =>
      if pyEq sb t then some (.clause fm pm r vp c po m)
      else
        match replaceBody t r sb with
        | some sb2 => some (.clause fm pm sb2 vp c po m)
        | none =>
          if pyEq vp t then some (.clause fm pm sb r c po m)
          else
            match replaceBody t r vp with
            | some vp2 => some (.clause fm pm sb vp2 c po m)
            | none => none
  | .coordination co cj pm c po m =>
      match scanFwd t r co with
      | some co2 => some (.coordination co2 cj pm c po m)
      | none => none
  | .phrase pt fm pm hd c po m =>
      match scanRev t r po with
      | some po2 => some (.phrase pt fm pm hd c po2 m)
      | none =>
        match scanRev t r c with
        | some c2 => some (.phrase pt fm pm hd c2 po m)
        | none =>
          if pyEq hd t then some (.phrase pt fm pm r c po m)
          else
            match scanRev t r pm with
            | some pm2 => some (.phrase pt fm pm2 hd c po m)
            | none => none
  | .nounPhrase sp fm pm hd c po m =>
      match scanRev t r po with
      | some po2 => some (.nounPhrase sp fm pm hd c po2 m)
      | none =>
        match scanRev t r c with
        | some c2 => some (.nounPhrase sp fm pm hd c2 po m)
        | none =>
          if pyEq hd t then some (.nounPhrase sp fm pm r c po m)
          else
            match scanRev t r pm with
            | some pm2 => some (.nounPhrase sp fm pm2 hd c po m)
            | none =>
              if pyEq sp t then some (.nounPhrase r fm pm hd c po m)
              else none

/-- One slot list scanned in reverse index order
(`for i, o in reversed(list(enumerate(lst)))`): the last indices are tried
first; at each index a structural match replaces in place, otherwise the
scan recurses into the element; `none` when nothing matched. -/
def scanRev (t r : Elem) : List Elem → Option (List Elem)
  | [] => none
  | o :: rest =>
    match scanRev t r rest with
    | some rest2 => some (o :: rest2)
    | none =>
      if pyEq o t then some (r :: rest)
      else
        match replaceBody t r o with
        | some o2 => some (o2 :: rest)
        | none => none

/-- One slot list scanned in forward index order (the `Coordination`
coordinates). -/
def scanFwd (t r : Elem) : List Elem → Option (List Elem)
  | [] => none
  | o :: rest =>
    if pyEq o t then some (r :: rest)
    else
      match replaceBody t r o with
      | some o2 => some (o2 :: rest)
      | none =>
        match scanFwd t r rest with
        | some rest2 => some (o :: rest2)
        | none => none
end

/-- `replace_element(sent, elt, replacement)`: `True` at once (with no
mutation) when the root itself equals the target, otherwise the result of
the recursive scan — `True` with the rewritten tree on a match, `False`
with the unchanged tree otherwise. -/
def replaceElement (sent t r : Elem) : Bool × Elem :=
  if pyEq sent t then (true, sent)
  else
    match replaceBody t r sent with
    | some e2 => (true, e2)
    | none => (false, sent)

mutual
/-- Whether the target occurs — structurally — somewhere `replace_element`
looks: at the node itself, inside a recursively scanned slot (clause
subject and predicate, coordination coordinates, phrase post-modifier,
complement and pre-modifier lists), or equal to a slot that is compared at
top level only (the phrase head and the noun-phrase specifier, whose
subtrees the scan never enters). -/
def occursScan (t : Elem) : Elem → Bool
  | .element m => pyEq (.element m) t
  | .string v m => pyEq (.string v m) t
  | .word w p b m => pyEq (.word w p b m) t
  | .var i vl m => pyEq (.var i vl m) t
  | .clause fm pm sb vp c po m =>
      pyEq (.clause fm pm sb vp c po m) t || occursScan t sb || occursScan t vp
  | .coordination co cj pm c po m =>
      pyEq (.coordination co cj pm c po m) t || occursAny t co
  | .phrase pt fm pm hd c po m =>
      pyEq (.phrase pt fm pm hd c po m) t ||
        (occursAny t po || occursAny t c || pyEq hd t || occursAny t pm)
  | .nounPhrase sp fm pm hd c po m =>
      pyEq (.nounPhrase sp fm pm hd c po m) t ||
        (occursAny t po || occursAny t c || pyEq hd t || occursAny t pm ||
         pyEq sp t)

/-- Occurrence in some element of a slot list. -/
def occursAny (t : Elem) : List Elem → Bool
  | [] => false
  | o :: rest => occursScan t o || occursAny t rest
end

/-- Modelled from the spec: the ontology collaborator of section 6
(`nlglib.ctx` and the ontology implementation are not among the sources):
`bestEntityType(identifier) -> typeName` and
`entitiesOfType(typeName) -> identifiers`.  A lookup that would raise is
represented by an absent ontology (`Option Ontology` below), which the
source turns into the recoverable fallback branch. -/
structure Ontology where
  best_entity_type : String → String
  entities_of_type : String → List String

/-- A key of the referent registry dictionary: `_do_initial_reference`
stores plain Python strings on the ontology path and the referent element
itself on the fallback path, so both live in the same dictionary. -/
inductive RefKey where
  | strKey : String → RefKey
  | elemKey : Elem → RefKey

/-- Python equality of two registry keys, as dictionary insertion uses it:
two strings compare by value, two elements by `__eq__`; a string and an
element are never equal. -/
def keyEqKey : RefKey → RefKey → Bool
  | .strKey a, .strKey b => a == b
  | .elemKey a, .elemKey b => pyEq a b
  | _, _ => false

/-- Whether a stored key equals an element being looked up
(`referent in context.referents`, `context.referents[referent]`): a string
key never equals an element (`String('x') == 'x'` is `False` both ways in
the source), an element key compares by `__eq__`. -/
def keyMatchesElem : RefKey → Elem → Bool
  | .strKey _, _ => false
  | .elemKey a, e => pyEq a e

/-- Modelled from the spec: the `LinguisticContext` of `nlglib.ctx` (not
among the sources), restricted to the two fields the claims need — the
ontology collaborator and the referent registry
`referents : referent-key -> (isGloballyUnique, cachedExpression)`
(spec section 3, Discourse Context). -/
structure LinguisticContext where
  ontology : Option Ontology
  referents : List (RefKey × (Bool × Elem))

/-- Dictionary assignment `context.referents[k] = v`: overwrite in place
when an equal key is present, else append. -/
def insertRef : List (RefKey × (Bool × Elem)) → RefKey → (Bool × Elem) →
    List (RefKey × (Bool × Elem))
  | [], k, v => [(k, v)]
  | kv :: rest, k, v =>
      if keyEqKey kv.1 k then (kv.1, v) :: rest else kv :: insertRef rest k v

/-- Dictionary lookup of an element key (`context.referents[referent]`). -/
def lookupByElem : List (RefKey × (Bool × Elem)) → Elem → Option (Bool × Elem)
  | [], _ => none
  | kv :: rest, e => if keyMatchesElem kv.1 e then some kv.2 else lookupByElem rest e

/-- Membership test `referent in context.referents`. -/
def memReferents (e : Elem) (refs : List (RefKey × (Bool × Elem))) : Bool :=
  (lookupByElem refs e).isSome

/-- Overwrite the value stored under the element key that matches the
referent, keeping the key object (used where the source mutates the cached
expression it just looked up, which is the very object the dictionary
holds). -/
def updateByElem : List (RefKey × (Bool × Elem)) → Elem → (Bool × Elem) →
    List (RefKey × (Bool × Elem))
  | [], _, _ => []
  | kv :: rest, e, v =>
      if keyMatchesElem kv.1 e then (kv.1, v) :: rest else kv :: updateByElem rest e v

/-- Whether the first character of the referent text is upper case
(`referent[0].isupper()`); an empty string raises in the source and is
routed to the fallback before this test. -/
def firstIsUpper (s : String) : Bool :=
  match s.toList with
  | [] => false
  | ch :: _ => ch.isUpper

/-- `rpartition(':')[2]`: the text after the last colon (the whole string
when there is no colon). -/
def afterLastColon (s : String) : String :=
  String.mk ((s.toList.reverse.takeWhile (fun c => c ≠ ':')).reverse)

/-- The numeral suffix of `re.search(r"([^0-9]+)([0-9]+)$", referent)`:
the maximal trailing digit run, provided it is non-empty and preceded by
at least one non-digit character. -/
def digitSuffix (s : String) : Option String :=
  let r := s.toList.reverse
  let ds := r.takeWhile Char.isDigit
  let rest := r.dropWhile Char.isDigit
  if ds.isEmpty || rest.isEmpty then none else some (String.mk ds.reverse)

/-- Translation of `_do_initial_reference(target, context)`.

The attribute `target._features` that the source reads when building
fallback and proper-name phrases is not defined by `structures.py`;
`Element.__getattr__` would resolve it through the lexicon feature-constant
package, which is not among the sources.  Modelled from the spec
(section 4.3, steps 1 and 6: the phrase wraps the raw referent), it
denotes the feature dict of the target.

* A missing ontology, a referent with no text, or an empty referent text
  raise in the source (`AttributeError` / `TypeError` / `IndexError`) and
  are caught: the fallback wraps the referent in a `NounPhrase` and caches
  `(False, expr)` under the element itself.
* A referent starting upper case is a proper name: a `NounPhrase` tagged
  `PROPER = true`, returned without touching the registry.
* Otherwise the ontology names the entity type; the expression is a
  `NounPhrase` around `Word(entity_type, 'NOUN')`; the distractor set is
  the de-duplicated set of entities of that type.  When it is empty, or a
  singleton equal to the referent, the pair `(True, copy-without-spec)` is
  cached under the *string* key and the returned expression receives the
  determiner `the`.  Otherwise `(False, expr)` is cached under the string
  key, and a numeral suffix of the referent is appended as a complement
  with `PROPER = true` (the dictionary holds the same object the source
  then mutates, so the cached value is the final expression). -/
def doInitialReference (target : Elem) (context : LinguisticContext) :
    Elem × LinguisticContext :=
  let fallbackResult := mkNounPhrase (some target) none (featuresOf target)
  let fallback : Elem × LinguisticContext :=
    (fallbackResult,
      ⟨context.ontology,
       insertRef context.referents (.elemKey target) (false, fallbackResult)⟩)
  match context.ontology with
  | none => fallback
  | some onto =>
    match elemString target with
    | none => fallback
    | some referent =>
      if referent.toList.isEmpty then fallback
      else if firstIsUpper referent then
        (setFeature (mkNounPhrase (some target) none (featuresOf target)) "PROPER" "true",
         context)
      else
        let entityType := afterLastColon (onto.best_entity_type (":" ++ referent))
        let result := mkNounPhrase (some (mkWord entityType "NOUN" [])) none []
        let sameType := ((onto.entities_of_type (":" ++ entityType)).map afterLastColon).dedup
        let count := sameType.length
        if count = 0 ∨ (count = 1 ∧ sameType.headD "" = referent) then
          let cached := deepcopy result
          (setSpecRaw result (mkWord "the" "DETERMINER" []),
           ⟨context.ontology,
            insertRef context.referents (.strKey referent) (true, cached)⟩)
        else
          let result2 :=
            match digitSuffix referent with
            | some n => setFeature (addComplement result (mkWord n "ANY" [])) "PROPER" "true"
            | none => result
          (result2,
           ⟨context.ontology,
            insertRef context.referents (.strKey referent) (false, result2)⟩)

/-- Translation of `_do_repeated_reference(referent, context)`: a referent
cached as unique yields a deep copy of the cached expression with the
determiner forced to `the`; a non-unique cached expression is returned
shared, with the determiner forced to `a` unless it is tagged
`PROPER = true` — the source mutates the very object the registry holds,
so the registry entry changes with it.  (The source raises `KeyError` for
an absent referent; the caller only dispatches here after a successful
membership test, so that branch returns the referent unchanged.) -/
def doRepeatedReference (referent : Elem) (context : LinguisticContext) :
    Elem × LinguisticContext :=
  match lookupByElem context.referents referent with
  | none => (referent, context)
  | some (isUnique, refexp) =>
    if isUnique then
      (setSpecRaw (deepcopy refexp) (mkWord "the" "DETERMINER" []), context)
    else
      if hasFeatureB refexp "PROPER" "true" then (refexp, context)
      else
        let result := setSpecRaw refexp (mkWord "a" "DETERMINER" [])
        (result,
         ⟨context.ontology, updateByElem context.referents referent (false, result)⟩)

/-- Whether the referent is a `String` or a `Word` leaf. -/
def isStrOrWord : Elem → Bool
  | .string _ _ => true
  | .word _ _ _ _ => true
  | _ => false

/-- Translation of `generate_ref_exp(referent, context)`: anything other
than a `String` or `Word` passes through unchanged; a referent found in
the registry takes the repeated-reference path, otherwise the
initial-reference path. -/
def generateRefExp (referent : Elem) (context : LinguisticContext) :
    Elem × LinguisticContext :=
  if isStrOrWord referent then
    if memReferents referent context.referents then
      doRepeatedReference referent context
    else
      doInitialReference referent context
  else (referent, context)

/-- The pronoun cases `PronounUse` of the lexicon that the clause branch of
`optimise_ref_exp` selects among. -/
inductive PronounUse where
  | subjective
  | objective
  | reflexive
deriving DecidableEq, Repr

/-- Python generator membership `np in e.constituents()`: some yielded
element is the same object (`is`, compared here by identity token) or
structurally equal, with `np` on the left of `==` as CPython evaluates
it. -/
def inConstituents (np e : Elem) : Bool :=
  (constituents e).any (fun x => tokOf np == tokOf x || pyEq np x)

/-- Whether an object with the given identity token is yielded by the
traversal of the subtree. -/
def occursTok (t : Nat) (e : Elem) : Bool :=
  (constituents e).any (fun x => tokOf x == t)

/-- The pronoun-case selection of `optimise_ref_exp` (reg.py, the
clause branch around the `pronominalise` calls) for a candidate noun
phrase `np` inside the sentence `phrase`:

* within a `Clause`, the subject case when `np` *is* the clause subject
  (`id(np) == id(phrase.subj)`);
* else the reflexive case when `np` occurs in both the subject subtree and
  the predicate subtree (`np in phrase.subj.constituents() and
  np in phrase.vp.constituents()` — structural membership);
* else the objective case when `np` occurs in the predicate subtree;
* else, and outside a `Clause`, the subjective case. -/
def pronounUseFor (phrase np : Elem) : PronounUse :=
  match phrase with
  | .clause _ _ sb vp _ _ _ =>
      if tokOf np == tokOf sb then .subjective
      else if inConstituents np sb && inConstituents np vp then .reflexive
      else if inConstituents np vp then .objective
      else .subjective
  | _ => .subjective

/-- The typed failure of `PredicateMsg.value_for`
(`structures/macroplanning.py`): the requested index is not smaller than
the number of stored arguments. -/
inductive SignatureErr where
  | indexTooLarge : Nat → Nat → SignatureErr
deriving DecidableEq, Repr

/-- `PredicateMsg(pred, *arguments)`: the predicate name and the stored
argument list (argument values are opaque to `value_for`). -/
structure PredicateMsg (α : Type) where
  predName : String
  args : List α
  features : List (String × String)

/-- `PredicateMsg.value_for(key)` for a non-negative integer key: raise
`SignatureError` when the index reaches past the argument list, else
return the indexed argument.  The method reads `self.args` only, so its
translation is a pure function of the message. -/
def valueFor {α : Type} (msg : PredicateMsg α) (idx : Nat) : Except SignatureErr α :=
  if h : idx < msg.args.length then .ok (msg.args.get ⟨idx, h⟩)
  else .error (.indexTooLarge idx msg.args.length)

/-- Registry lookup by a plain string key. -/
def lookupStrKey : List (RefKey × (Bool × Elem)) → String → Option (Bool × Elem)
  | [], _ => none
  | kv :: rest, s => if keyEqKey kv.1 (.strKey s) then some kv.2 else lookupStrKey rest s

/-- Whether the node is a bare `Element` placeholder (which the traversal
never yields). -/
def isBare : Elem → Bool
  | .element _ => true
  | _ => false

/-- An ontology whose every type has the single entity `dog`; used for the
globally-unique scenarios. -/
def ontoUnique : Ontology := ⟨fun _ => ":dog", fun _ => [":dog"]⟩

/-- An ontology whose every type has the two entities `dog1`, `dog2`; used
for the two-distractor scenarios. -/
def ontoTwo : Ontology := ⟨fun _ => ":dog", fun _ => [":dog1", ":dog2"]⟩

/-- The referent `Word('dog', 'NOUN')`. -/
def wDog : Elem := mkWord "dog" "NOUN" []

/-- A noun phrase around the noun `dog` carrying the complement `1` — the
shape `_do_initial_reference` itself builds for numbered referents. -/
def npWithCompl : Elem :=
  addComplement (mkNounPhrase (some (mkWord "dog" "NOUN" [])) none []) (mkWord "1" "ANY" [])

/-- The adjective word of the duplication example. -/
def wRed : Elem := mkWord "red" "ADJECTIVE" []

/-- A noun phrase whose head is `wRed` — a nested phrasal modifier. -/
def npRed : Elem := mkNounPhrase (some wRed) none []

/-- A plain phrase whose only front-modifier is the nested phrase
`npRed`. -/
def phNested : Elem := .phrase .generic [npRed] [] blankElem [] [] meta0

/-- The target string leaf of the clause-complement scenario. -/
def sTarget : Elem := mkString "x" []

/-- A clause whose complement list holds `sTarget`; its subject and
predicate do not contain the target. -/
def clWithCompl : Elem :=
  .clause [] [] (mkNounPhrase (some (mkWord "dog" "NOUN" [])) none [])
    (mkVerbPhrase (some (mkWord "runs" "VERB" [])) [] []) [sTarget] [] meta0

/-- The doubly-occurring post-modifier of the scan-order scenario. -/
def sMatch : Elem := mkString "m" []

/-- The replacement of the scan-order scenario. -/
def sRepl : Elem := mkString "y" []

/-- A phrase with the same matching post-modifier at indices 0 and 1. -/
def phTwoMatches : Elem := .phrase .generic [] [] blankElem [] [sMatch, sMatch] meta0

/-- The pronominalisation candidate: a `cat` noun phrase, object identity
token 10. -/
def npCand : Elem :=
  .nounPhrase blankElem [] [] (mkWord "cat" "NOUN" []) [] [] (metaFT [] 10)

/-- A structurally equal twin of `npCand` with a different identity token,
sitting inside the subject. -/
def npTwin : Elem :=
  .nounPhrase blankElem [] [] (mkWord "cat" "NOUN" []) [] [] (metaFT [] 2)

/-- The clause subject: a `dog` noun phrase holding `npTwin` as a
complement. -/
def subjC7 : Elem :=
  .nounPhrase blankElem [] [] (mkWord "dog" "NOUN" []) [npTwin] [] (metaFT [] 1)

/-- The clause predicate: a verb phrase holding `npCand` as a
complement. -/
def vpC7 : Elem :=
  .phrase .verb [] [] (mkWord "sees" "VERB" []) [npCand] [] (metaFT [] 3)

/-- The clause of the case-selection scenario. -/
def clC7 : Elem := .clause [] [] subjC7 vpC7 [] [] (metaFT [] 4)

/-- The double expansion a phrase slot element receives in
`constituents()`: `for x in o.constituents(): yield from
x.constituents()`. -/
def expand (o : Elem) : List Elem :=
  (constituents o).flatMap (fun x => constituents x)

/-- Slot-list version of `expand`: each element in index order, each
double-expanded. -/
def expandL (l : List Elem) : List Elem :=
  l.flatMap expand

/-- A noun phrase holding the target `sTarget` in its complement list;
used as a phrase head below. -/
def npHeadC4 : Elem :=
  .nounPhrase blankElem [] [] (mkWord "box" "NOUN" []) [sTarget] [] meta0

/-- A phrase whose head subtree (not the head itself) contains the
target — the slot `replace_element` compares only at top level. -/
def phHeadNested : Elem := .phrase .generic [] [] npHeadC4 [] [] meta0

/-- A phrase with the same matching complement at indices 0 and 1. -/
def phCompl2 : Elem := .phrase .generic [] [] blankElem [sMatch, sMatch] [] meta0

/-- A phrase whose head equals the target at top level. -/
def phHeadMatch : Elem := .phrase .generic [] [] sMatch [] [] meta0

/-- A phrase with the same matching pre-modifier at indices 0 and 1. -/
def phPre2 : Elem := .phrase .generic [] [sMatch, sMatch] blankElem [] [] meta0

/-- A noun phrase whose specifier equals the target. -/
def npSpecMatch : Elem := .nounPhrase sMatch [] [] blankElem [] [] meta0

/-- A noun phrase with the same matching post-modifier at indices 0
and 1. -/
def npPo2 : Elem := .nounPhrase blankElem [] [] blankElem [] [sMatch, sMatch] meta0

/-- The distractor set `_do_initial_reference` computes: the entities the
ontology knows for the referent entity type, names stripped after the
last colon, de-duplicated (Python builds a `set`). -/
def distractors (onto : Ontology) (s : String) : List String :=
  ((onto.entities_of_type (":" ++ afterLastColon (onto.best_entity_type (":" ++ s)))).map
    afterLastColon).dedup

/-- Inserting a string key makes it retrievable: the registry behaves as a
dictionary on string keys. -/
theorem lookupStrKey_insertRef (refs : List (RefKey × (Bool × Elem))) (s : String)
    (v : Bool × Elem) : lookupStrKey (insertRef refs (.strKey s) v) s = some v := by
  induction refs with
  | nil => simp [insertRef, lookupStrKey, keyEqKey]
  | cons kv rest ih =>
    by_cases h : keyEqKey kv.1 (.strKey s) = true
    · simp [insertRef, h, lookupStrKey]
    · simp only [insertRef, h]
      simp only [Bool.false_eq_true, if_false]
      simp [lookupStrKey, h, ih]

/-- Claim C8: hashing a `Coordination` always fails with the fatal
`UnsupportedOperation`-class error (`assert False` in
`Coordination.__hash__`), whatever its coordinates, conjunction, modifier
lists or features; it never returns a hash value. -/
theorem c8_coordination_hash_fatal :
    ∀ (co : List Elem) (cj : String) (pm c po : List Elem) (m : EMeta),
      pyHash (.coordination co cj pm c po m) = .error .unsupportedOperation :=
  fun _ _ _ _ _ _ => rfl

/-- Claim C10: hashing is fatal for every composite element — a `Phrase`
of any `_type` tag (`Phrase`, `VerbPhrase`, `PrepositionalPhrase`,
`AdjectivePhrase`, `AdverbPhrase`) and a `Coordination` die in
`assert False`, while `NounPhrase` and `Clause` define `__eq__` without
`__hash__` and are therefore unhashable — whereas the leaf variants
`Element`, `String` and `Word` always hash, and a `Var` hashes whenever
hashing its value succeeds (its default value is a `Word`). -/
theorem c10_composite_hash_fatal :
    (∀ (pt : PType) (fm pm : List Elem) (hd : Elem) (c po : List Elem) (m : EMeta),
        pyHash (.phrase pt fm pm hd c po m) = .error .unsupportedOperation) ∧
    (∀ (sp : Elem) (fm pm : List Elem) (hd : Elem) (c po : List Elem) (m : EMeta),
        pyHash (.nounPhrase sp fm pm hd c po m) = .error .unhashableType) ∧
    (∀ (fm pm : List Elem) (sb vp : Elem) (c po : List Elem) (m : EMeta),
        pyHash (.clause fm pm sb vp c po m) = .error .unhashableType) ∧
    (∀ (co : List Elem) (cj : String) (pm c po : List Elem) (m : EMeta),
        pyHash (.coordination co cj pm c po m) = .error .unsupportedOperation) ∧
    (∀ m : EMeta, ∃ n, pyHash (.element m) = .ok n) ∧
    (∀ (v : String) (m : EMeta), ∃ n, pyHash (.string v m) = .ok n) ∧
    (∀ (w p b : String) (m : EMeta), ∃ n, pyHash (.word w p b m) = .ok n) ∧
    (∀ (i : String) (vl : Elem) (m : EMeta) (hv : Nat), pyHash vl = .ok hv →
        ∃ n, pyHash (.var i vl m) = .ok n) := by
  refine ⟨fun _ _ _ _ _ _ _ => rfl, fun _ _ _ _ _ _ _ => rfl,
    fun _ _ _ _ _ _ _ => rfl, fun _ _ _ _ _ _ => rfl,
    fun m => ⟨elementHash m, rfl⟩,
    fun v m => ⟨(11 * elementHash m) ^^^ pyStrHash v, rfl⟩,
    fun w p b m => ⟨(11 * elementHash m) ^^^ (pyStrHash p ^^^ pyStrHash w), rfl⟩,
    fun i vl m hv h =>
      ⟨(11 * (pyStrHash i ^^^ featsHash m.features)) ^^^ (pyStrHash i &&& hv), ?_⟩⟩
  simp [pyHash, h]

/-- Witness for C10 at a concrete input: a `Var` whose value is a
`String` hashes successfully. -/
theorem c10_composite_hash_fatal_witness :
    ∃ n, pyHash (.var "x" (mkString "a" []) meta0) = .ok n :=
  c10_composite_hash_fatal.2.2.2.2.2.2.2 "x" (mkString "a" []) meta0
    ((11 * elementHash (metaF [])) ^^^ pyStrHash "a") rfl

/-- Claim C9: `PredicateMsg.value_for` with a non-negative integer index
raises `SignatureError` exactly when the index reaches at or past the end
of the stored argument list, and returns the indexed argument otherwise;
the method only reads the message, so its translation is a pure function
and the message is unchanged in the error case. -/
theorem c9_value_for_contract :
    ∀ (α : Type) (msg : PredicateMsg α) (i : Nat),
      (msg.args.length ≤ i →
        valueFor msg i = .error (.indexTooLarge i msg.args.length)) ∧
      (∀ h : i < msg.args.length, valueFor msg i = .ok (msg.args.get ⟨i, h⟩)) := by
  intro α msg i
  constructor
  · intro h
    rw [valueFor, dif_neg (by omega)]
  · intro h
    rw [valueFor, dif_pos h]

/-- Witness for C9: a two-argument message answers index 1 and rejects
index 5. -/
theorem c9_value_for_contract_witness :
    valueFor (⟨"p", [10, 20], []⟩ : PredicateMsg Nat) 5 = .error (.indexTooLarge 5 2) ∧
    valueFor (⟨"p", [10, 20], []⟩ : PredicateMsg Nat) 1 = .ok 20 :=
  ⟨(c9_value_for_contract Nat ⟨"p", [10, 20], []⟩ 5).1 (by decide),
   (c9_value_for_contract Nat ⟨"p", [10, 20], []⟩ 1).2 (by decide)⟩

/-- Claim C3 (code bug): `NounPhrase.__deepcopy__` rebuilds the phrase
from its head and specifier only, dropping the complement and modifier
lists, so the deep copy of a noun phrase with a complement is *not*
structurally equal to the original — against the round-trip-copy claim
(and against `Phrase.__deepcopy__`, which copies all five lists).  The
cached hash is carried over as claimed. -/
theorem c3_deepcopy_drops_lists :
    pyEq (deepcopy npWithCompl) npWithCompl = false ∧
    complementsOf npWithCompl = [mkWord "1" "ANY" []] ∧
    complementsOf (deepcopy npWithCompl) = [] ∧
    (metaOf (deepcopy npWithCompl)).hash = (metaOf npWithCompl).hash ∧
    pyEq (deepcopy (mkNounPhrase (some (mkWord "dog" "NOUN" [])) none []))
      (mkNounPhrase (some (mkWord "dog" "NOUN" [])) none []) = true :=
  ⟨rfl, rfl, rfl, rfl, rfl⟩

/-- Claim C2 (code bug): after the first `generate_ref_exp` call for the
lower-case `Word` referent `dog` (whose type has exactly one known
instance, itself), the registry holds a single entry — under the plain
*string* key `"dog"` — yet the membership test `referent in
context.referents` run with the `Word` element finds nothing, because a
string key never equals an element.  The second call for an equal referent
therefore takes the initial-reference path again, not the
repeated-reference path required by the claim, even though the first call
did everything else as specified (unique referent, determiner `the`). -/
theorem c2_registry_key_mismatch :
    (generateRefExp wDog ⟨some ontoUnique, []⟩).2.referents.map Prod.fst
        = [RefKey.strKey "dog"] ∧
    memReferents wDog (generateRefExp wDog ⟨some ontoUnique, []⟩).2.referents = false ∧
    determinerOf (generateRefExp wDog ⟨some ontoUnique, []⟩).1 = some "the" ∧
    generateRefExp wDog (generateRefExp wDog ⟨some ontoUnique, []⟩).2
      = doInitialReference wDog (generateRefExp wDog ⟨some ontoUnique, []⟩).2 :=
  ⟨rfl, rfl, rfl, rfl⟩

/-- Claim C1 counterexample: the referent `dog1`, whose type `dog` has the
two known instances `dog1` and `dog2`, receives on first mention an
expression with *no* determiner at all (the specifier is the empty
placeholder, and the commented-out indefinite-determiner assignment in
`_do_initial_reference` never runs) — not the indefinite determiner the
claim asserts.  The non-unique pair is cached and the numeral suffix is
appended as claimed. -/
theorem c1_counterexample :
    determinerOf (doInitialReference (mkString "dog1" []) ⟨some ontoTwo, []⟩).1 = none ∧
    specOf (doInitialReference (mkString "dog1" []) ⟨some ontoTwo, []⟩).1 = some blankElem ∧
    hasFeatureB (doInitialReference (mkString "dog1" []) ⟨some ontoTwo, []⟩).1
      "PROPER" "true" = true ∧
    complementsOf (doInitialReference (mkString "dog1" []) ⟨some ontoTwo, []⟩).1
      = [mkWord "1" "ANY" []] ∧
    lookupStrKey (doInitialReference (mkString "dog1" []) ⟨some ontoTwo, []⟩).2.referents
      "dog1" = some (false, (doInitialReference (mkString "dog1" []) ⟨some ontoTwo, []⟩).1) :=
  ⟨rfl, rfl, rfl, rfl, rfl⟩

/-- Claim C1 as amended: for a non-proper-name string referent consulted
against the ontology, when the distractor set is empty or is the singleton
referent itself, the first reference carries the definite determiner `the`
and the registry caches `(isUnique = true, expression without determiner)`
under the referent string; when the distractor set has two or more
members, the first expression carries *no* determiner (its specifier stays
the empty placeholder — the indefinite determiner is only ever added on
repeated reference) and the registry caches `(isUnique = false,
expression)`. -/
theorem c1_initial_reference_determiners
    (onto : Ontology) (refs : List (RefKey × (Bool × Elem))) (s : String) (m : EMeta)
    (hne : s.toList.isEmpty = false) (hlow : firstIsUpper s = false) :
    ((distractors onto s = [] ∨ distractors onto s = [s]) →
      determinerOf (doInitialReference (.string s m) ⟨some onto, refs⟩).1 = some "the" ∧
      ∃ cached,
        lookupStrKey (doInitialReference (.string s m) ⟨some onto, refs⟩).2.referents s
          = some (true, cached) ∧ specOf cached = some blankElem) ∧
    (2 ≤ (distractors onto s).length →
      specOf (doInitialReference (.string s m) ⟨some onto, refs⟩).1 = some blankElem ∧
      determinerOf (doInitialReference (.string s m) ⟨some onto, refs⟩).1 = none ∧
      lookupStrKey (doInitialReference (.string s m) ⟨some onto, refs⟩).2.referents s
        = some (false, (doInitialReference (.string s m) ⟨some onto, refs⟩).1)) := by
  constructor
  · intro hd
    have hcond : (distractors onto s).length = 0 ∨
        ((distractors onto s).length = 1 ∧ (distractors onto s).headD "" = s) := by
      rcases hd with hd | hd
      · exact Or.inl (by rw [hd]; rfl)
      · exact Or.inr ⟨by rw [hd]; rfl, by rw [hd]; rfl⟩
    have hbr : doInitialReference (.string s m) ⟨some onto, refs⟩ =
        (setSpecRaw
          (mkNounPhrase
            (some (mkWord (afterLastColon (onto.best_entity_type (":" ++ s))) "NOUN" []))
            none [])
          (mkWord "the" "DETERMINER" []),
         ⟨some onto,
          insertRef refs (.strKey s)
            (true, deepcopy (mkNounPhrase
              (some (mkWord (afterLastColon (onto.best_entity_type (":" ++ s))) "NOUN" []))
              none []))⟩) := by
      simp only [doInitialReference, elemString, hne, hlow, Bool.false_eq_true, if_false]
      rw [if_pos]
      exact hcond
    rw [hbr]
    refine ⟨by simp [setSpecRaw, mkNounPhrase, determinerOf, specOf, mkWord], ?_⟩
    refine ⟨_, lookupStrKey_insertRef refs s _, ?_⟩
    simp [deepcopy, mkNounPhrase, specOf, blankElem, meta0]
  · intro hlen
    have hcond : ¬((distractors onto s).length = 0 ∨
        ((distractors onto s).length = 1 ∧ (distractors onto s).headD "" = s)) := by
      rintro (h | ⟨h, _⟩) <;> omega
    simp only [distractors] at hcond
    cases hds : digitSuffix s with
    | some n =>
      have hbr : doInitialReference (.string s m) ⟨some onto, refs⟩ =
          (setFeature
            (addComplement
              (mkNounPhrase
                (some (mkWord (afterLastColon (onto.best_entity_type (":" ++ s))) "NOUN" []))
                none [])
              (mkWord n "ANY" [])) "PROPER" "true",
           ⟨some onto,
            insertRef refs (.strKey s)
              (false,
               setFeature
                 (addComplement
                   (mkNounPhrase
                     (some (mkWord (afterLastColon (onto.best_entity_type (":" ++ s))) "NOUN" []))
                     none [])
                   (mkWord n "ANY" [])) "PROPER" "true")⟩) := by
        simp only [doInitialReference, elemString, hne, hlow, Bool.false_eq_true, if_false]
        rw [if_neg hcond, hds]
      rw [hbr]
      refine ⟨?_, ?_, ?_⟩
      · simp [setFeature, addComplement, mkNounPhrase, specOf, blankElem, meta0]
      · simp [setFeature, addComplement, mkNounPhrase, determinerOf, specOf, blankElem, meta0]
      · exact lookupStrKey_insertRef refs s _
    | none =>
      have hbr : doInitialReference (.string s m) ⟨some onto, refs⟩ =
          (mkNounPhrase
            (some (mkWord (afterLastColon (onto.best_entity_type (":" ++ s))) "NOUN" []))
            none [],
           ⟨some onto,
            insertRef refs (.strKey s)
              (false,
               mkNounPhrase
                 (some (mkWord (afterLastColon (onto.best_entity_type (":" ++ s))) "NOUN" []))
                 none [])⟩) := by
        simp only [doInitialReference, elemString, hne, hlow, Bool.false_eq_true, if_false]
        rw [if_neg hcond, hds]
      rw [hbr]
      refine ⟨?_, ?_, ?_⟩
      · simp [mkNounPhrase, specOf, blankElem, meta0]
      · simp [mkNounPhrase, determinerOf, specOf, blankElem, meta0]
      · exact lookupStrKey_insertRef refs s _

/-- Witness for C1 at a concrete input: the referent `dog`, sole entity of
its type, gets the determiner `the` and a cached determiner-free
expression. -/
theorem c1_initial_reference_determiners_witness :
    determinerOf (doInitialReference (.string "dog" (metaF [])) ⟨some ontoUnique, []⟩).1
      = some "the" ∧
    ∃ cached,
      lookupStrKey
        (doInitialReference (.string "dog" (metaF [])) ⟨some ontoUnique, []⟩).2.referents
        "dog" = some (true, cached) ∧ specOf cached = some blankElem :=
  (c1_initial_reference_determiners ontoUnique [] "dog" (metaF []) rfl rfl).1
    (Or.inr (by decide))

/-- Claim C7 counterexample: the candidate `npCand` occurs *by identity*
only within the predicate subtree of `clC7` (its token is absent from the
subject subtree and it is not the subject), so the claim requires the
objective case; but the source tests subtree membership with structural
equality, finds the structurally equal twin `npTwin` inside the subject,
and selects the reflexive case instead. -/
theorem c7_counterexample :
    (tokOf npCand == tokOf subjC7) = false ∧
    occursTok (tokOf npCand) subjC7 = false ∧
    occursTok (tokOf npCand) vpC7 = true ∧
    pronounUseFor clC7 npCand = PronounUse.reflexive ∧
    pronounUseFor clC7 npCand ≠ PronounUse.objective :=
  ⟨rfl, rfl, rfl, rfl, by decide⟩

/-- Claim C7 as amended: in the clause branch of `optimise_ref_exp`, a
candidate identical (same identity token) to the clause subject is
pronominalised in the subjective case; otherwise the subtree tests use
*structural* membership of the generator `constituents()` (identity
shortcut included): membership in both the subject and predicate subtrees
selects the reflexive case, membership in the predicate subtree only the
objective case, and no predicate membership the subjective default. -/
theorem c7_case_selection
    (fm pm : List Elem) (sb vp : Elem) (c po : List Elem) (m : EMeta) (np : Elem) :
    ((tokOf np == tokOf sb) = true →
      pronounUseFor (.clause fm pm sb vp c po m) np = .subjective) ∧
    ((tokOf np == tokOf sb) = false → inConstituents np sb = true →
      inConstituents np vp = true →
      pronounUseFor (.clause fm pm sb vp c po m) np = .reflexive) ∧
    ((tokOf np == tokOf sb) = false → inConstituents np sb = false →
      inConstituents np vp = true →
      pronounUseFor (.clause fm pm sb vp c po m) np = .objective) ∧
    ((tokOf np == tokOf sb) = false → inConstituents np vp = false →
      pronounUseFor (.clause fm pm sb vp c po m) np = .subjective) := by
  refine ⟨?_, ?_, ?_, ?_⟩
  · intro h1
    simp [pronounUseFor, h1]
  · intro h1 h2 h3
    simp [pronounUseFor, h1, h2, h3]
  · intro h1 h2 h3
    simp [pronounUseFor, h1, h2, h3]
  · intro h1 h3
    simp [pronounUseFor, h1, h3]

/-- Witness for C7 at a concrete input: the candidate found structurally
in both subtrees of `clC7` is pronominalised reflexively. -/
theorem c7_case_selection_witness :
    pronounUseFor clC7 npCand = PronounUse.reflexive :=
  (c7_case_selection [] [] subjC7 vpC7 [] [] (metaFT [] 4) npCand).2.1 rfl rfl rfl

mutual
/-- The scan body finds a match exactly when the target occurs in a
scanned slot: the root test plus the body success coincide with
`occursScan`. -/
theorem replaceBody_spec (t r : Elem) : ∀ e : Elem,
    (pyEq e t || (replaceBody t r e).isSome) = occursScan t e
  | .element m => by simp [replaceBody, occursScan]
  | .string v m => by simp [replaceBody, occursScan]
  | .word w p b m => by simp [replaceBody, occursScan]
  | .var i vl m => by simp [replaceBody, occursScan]
  | .clause fm pm sb vp c po m => by
      have hsb := replaceBody_spec t r sb
      have hvp := replaceBody_spec t r vp
      simp only [replaceBody, occursScan]
      rw [← hsb, ← hvp]
      by_cases h1 : pyEq sb t = true
      · simp [h1]
      · rcases hb1 : replaceBody t r sb with _ | sb2
        · by_cases h2 : pyEq vp t = true
          · simp [h1, hb1, h2]
          · rcases hb2 : replaceBody t r vp with _ | vp2 <;>
              simp [h1, hb1, h2, hb2]
        · simp [h1, hb1]
  | .coordination co cj pm c po m => by
      have hco := (scanSpec t r co).2
      simp only [replaceBody, occursScan]
      rw [← hco]
      rcases hs : scanFwd t r co with _ | co2 <;> simp [hs]
  | .phrase pt fm pm hd c po m => by
      have hpo := (scanSpec t r po).1
      have hc := (scanSpec t r c).1
      have hpm := (scanSpec t r pm).1
      simp only [replaceBody, occursScan]
      rw [← hpo, ← hc, ← hpm]
      rcases h1 : scanRev t r po with _ | po2
      · rcases h2 : scanRev t r c with _ | c2
        · by_cases h3 : pyEq hd t = true
          · simp [h1, h2, h3]
          · rcases h5 : scanRev t r pm with _ | pm2 <;>
              simp [h1, h2, h3, h5]
        · simp [h1, h2]
      · simp [h1]
  | .nounPhrase sp fm pm hd c po m => by
      have hpo := (scanSpec t r po).1
      have hc := (scanSpec t r c).1
      have hpm := (scanSpec t r pm).1
      simp only [replaceBody, occursScan]
      rw [← hpo, ← hc, ← hpm]
      rcases h1 : scanRev t r po with _ | po2
      · rcases h2 : scanRev t r c with _ | c2
        · by_cases h3 : pyEq hd t = true
          · simp [h1, h2, h3]
          · rcases h5 : scanRev t r pm with _ | pm2
            · by_cases h6 : pyEq sp t = true <;>
                simp [h1, h2, h3, h5, h6]
            · simp [h1, h2, h3, h5]
        · simp [h1, h2]
      · simp [h1]

/-- Both list scans succeed exactly when the target occurs in some list
element. -/
theorem scanSpec (t r : Elem) : ∀ l : List Elem,
    ((scanRev t r l).isSome = occursAny t l) ∧
    ((scanFwd t r l).isSome = occursAny t l)
  | [] => by simp [scanRev, scanFwd, occursAny]
  | o :: rest => by
      have ho := replaceBody_spec t r o
      have hrest := scanSpec t r rest
      constructor
      · simp only [scanRev, occursAny]
        rw [← ho, ← hrest.1]
        rcases hsr : scanRev t r rest with _ | rest2
        · by_cases h1 : pyEq o t = true
          · simp [hsr, h1]
          · rcases hb : replaceBody t r o with _ | o2 <;> simp [hsr, h1, hb]
        · simp [hsr]
      · simp only [scanFwd, occursAny]
        rw [← ho, ← hrest.2]
        by_cases h1 : pyEq o t = true
        · simp [h1]
        · rcases hb : replaceBody t r o with _ | o2
          · rcases hsf : scanFwd t r rest with _ | rest2 <;> simp [h1, hb, hsf]
          · simp [h1, hb]
end

/-- Claim C4 counterexample: two targets reachable from the root (both
are among the constituents) that `replace_element` never finds — one in
the complement list of a clause, whose branch scans only the subject and
the predicate, and one strictly inside a phrase head, which is compared
only at top level and never descended into; both calls return `False` and
change nothing. -/
theorem c4_counterexample :
    (replaceElement clWithCompl sTarget sRepl).1 = false ∧
    (replaceElement clWithCompl sTarget sRepl).2 = clWithCompl ∧
    sTarget ∈ constituents clWithCompl ∧
    (replaceElement phHeadNested sTarget sRepl).1 = false ∧
    (replaceElement phHeadNested sTarget sRepl).2 = phHeadNested ∧
    sTarget ∈ constituents phHeadNested := by
  refine ⟨rfl, rfl, ?_, rfl, rfl, ?_⟩
  · have h : constituents clWithCompl = [clWithCompl,
        mkNounPhrase (some (mkWord "dog" "NOUN" [])) none [], mkWord "dog" "NOUN" [],
        mkVerbPhrase (some (mkWord "runs" "VERB" [])) [] [], mkWord "runs" "VERB" [],
        sTarget] := rfl
    rw [h]
    exact .tail _ (.tail _ (.tail _ (.tail _ (.tail _ (.head _)))))
  · have h : constituents phHeadNested = [phHeadNested, npHeadC4,
        mkWord "box" "NOUN" [], sTarget, mkWord "box" "NOUN" [], sTarget] := rfl
    rw [h]
    exact .tail _ (.tail _ (.tail _ (.head _)))

/-- Claim C4 as amended: `replace_element` returns `False` and leaves the
tree unchanged if and only if the target matches no node where the scan
actually looks (`occursScan`: for a `Clause` only the subject and
predicate subtrees, for a `Phrase` the post-modifier, complement and
pre-modifier subtrees plus a top-level comparison of the head — whose
subtree is never entered — for a `NounPhrase` additionally a top-level
comparison of the specifier, for a `Coordination` the coordinate subtrees;
front-modifiers never); when the root itself equals the target it returns
`True` without changing anything; otherwise it replaces the first match in
scan order and returns `True`; the no-match case is a normal `False`
return, never an error. -/
theorem c4_replace_boolean_contract (s t r : Elem) :
    ((replaceElement s t r).1 = occursScan t s) ∧
    ((replaceElement s t r).1 = false → (replaceElement s t r).2 = s) ∧
    (pyEq s t = true → replaceElement s t r = (true, s)) := by
  have hb := replaceBody_spec t r s
  by_cases h1 : pyEq s t = true
  · exact ⟨by simp [replaceElement, h1, ← hb],
      by simp [replaceElement, h1],
      fun _ => by simp [replaceElement, h1]⟩
  · rcases hr : replaceBody t r s with _ | e2
    · exact ⟨by simp [replaceElement, h1, hr, ← hb],
        fun _ => by simp [replaceElement, h1, hr],
        fun hc => absurd hc h1⟩
    · refine ⟨by simp [replaceElement, h1, hr, ← hb], fun hf => ?_, fun hc => absurd hc h1⟩
      simp [replaceElement, h1, hr] at hf

/-- Witness for C4: the no-match clause scenario evaluates the contract at
a concrete input (`occursScan` is false there), and a root-equal call
returns `True` unchanged. -/
theorem c4_replace_boolean_contract_witness :
    (replaceElement clWithCompl sTarget sRepl).2 = clWithCompl ∧
    replaceElement sTarget sTarget sRepl = (true, sTarget) :=
  ⟨(c4_replace_boolean_contract clWithCompl sTarget sRepl).2.1 rfl,
   (c4_replace_boolean_contract sTarget sTarget sRepl).2.2 rfl⟩

/-- A list none of whose elements carries an occurrence of the target is
scanned without a match. -/
theorem occursAny_eq_false (t : Elem) (l : List Elem)
    (h : ∀ x ∈ l, occursScan t x = false) : occursAny t l = false := by
  induction l with
  | nil => rfl
  | cons o rest ih =>
    simp only [occursAny]
    rw [h o (List.mem_cons_self o rest), ih (fun x hx => h x (List.mem_cons_of_mem o hx))]
    rfl

/-- A reverse scan of a list with no occurrence finds nothing. -/
theorem scanRev_none_of_occursAny_false (t r : Elem) (l : List Elem)
    (h : occursAny t l = false) : scanRev t r l = none := by
  have hs := (scanSpec t r l).1
  rw [h] at hs
  rcases hx : scanRev t r l with _ | l2
  · rfl
  · rw [hx] at hs
    simp at hs

/-- The reverse scan replaces the element at index `j` when that element
matches at top level and no later index carries any occurrence of the
target: the last match in index order wins. -/
theorem scanRev_replaces_last (t r : Elem) :
    ∀ (l : List Elem) (j : Nat) (oj : Elem),
      l.get? j = some oj → pyEq oj t = true →
      (∀ k ok, l.get? k = some ok → j < k → occursScan t ok = false) →
      scanRev t r l = some (l.set j r) := by
  intro l
  induction l with
  | nil => intro j oj h; simp at h
  | cons o rest ih =>
    intro j oj hget hmatch hafter
    cases j with
    | zero =>
      have ho : o = oj := by simpa using hget
      have hrest : occursAny t rest = false := by
        apply occursAny_eq_false
        intro x hx
        obtain ⟨⟨k, hk⟩, hkx⟩ := List.mem_iff_get.mp hx
        have hx2 : rest.get? k = some x := by
          rw [List.get?_eq_get hk, hkx]
        have hk2 : (o :: rest).get? (k + 1) = some x := by
          simpa using hx2
        exact hafter (k + 1) x hk2 (by omega)
      have h0 : scanRev t r rest = none := scanRev_none_of_occursAny_false t r rest hrest
      rw [ho]
      simp [scanRev, h0, hmatch, List.set]
    | succ j =>
      have hget2 : rest.get? j = some oj := by simpa using hget
      have hafter2 : ∀ k ok, rest.get? k = some ok → j < k → occursScan t ok = false := by
        intro k ok hk hlt
        exact hafter (k + 1) ok (by simpa using hk) (by omega)
      have hr := ih j oj hget2 hmatch hafter2
      simp [scanRev, hr, List.set]

/-- Claim C5: when `replace_element` searches a `Phrase` or a
`NounPhrase`, the slots are scanned post-modifiers, then complements,
then the head, then pre-modifiers, then (for a `NounPhrase`) the
specifier, the list slots in reverse index order:

* with top-level matches at post-modifier indices `i < j` and no
  occurrence after `j`, the element at the larger index `j` (the most
  recently attached) is replaced and every other slot is left untouched,
  whatever it contains — for a `Phrase` and for a `NounPhrase` alike;
* with silent post-modifiers, the complements are scanned the same way,
  again leaving head, pre-modifiers (and specifier) untouched;
* with silent post-modifiers and complements, a head equal to the target
  is replaced, leaving the pre-modifiers untouched;
* next the pre-modifiers, in reverse index order;
* and only last, for a `NounPhrase` with every other slot silent, the
  specifier. -/
theorem c5_scan_order :
    (∀ (pt : PType) (fm pm : List Elem) (hd : Elem) (c po : List Elem) (m : EMeta)
        (t r : Elem) (i j : Nat) (oi oj : Elem),
        po.get? i = some oi → pyEq oi t = true → i < j →
        po.get? j = some oj → pyEq oj t = true →
        (∀ k ok, po.get? k = some ok → j < k → occursScan t ok = false) →
        pyEq (.phrase pt fm pm hd c po m) t = false →
        replaceElement (.phrase pt fm pm hd c po m) t r
          = (true, .phrase pt fm pm hd c (po.set j r) m)) ∧
    (∀ (sp : Elem) (fm pm : List Elem) (hd : Elem) (c po : List Elem) (m : EMeta)
        (t r : Elem) (i j : Nat) (oi oj : Elem),
        po.get? i = some oi → pyEq oi t = true → i < j →
        po.get? j = some oj → pyEq oj t = true →
        (∀ k ok, po.get? k = some ok → j < k → occursScan t ok = false) →
        pyEq (.nounPhrase sp fm pm hd c po m) t = false →
        replaceElement (.nounPhrase sp fm pm hd c po m) t r
          = (true, .nounPhrase sp fm pm hd c (po.set j r) m)) ∧
    (∀ (pt : PType) (fm pm : List Elem) (hd : Elem) (c po : List Elem) (m : EMeta)
        (t r : Elem) (i j : Nat) (oi oj : Elem),
        occursAny t po = false →
        c.get? i = some oi → pyEq oi t = true → i < j →
        c.get? j = some oj → pyEq oj t = true →
        (∀ k ok, c.get? k = some ok → j < k → occursScan t ok = false) →
        pyEq (.phrase pt fm pm hd c po m) t = false →
        replaceElement (.phrase pt fm pm hd c po m) t r
          = (true, .phrase pt fm pm hd (c.set j r) po m)) ∧
    (∀ (pt : PType) (fm pm : List Elem) (hd : Elem) (c po : List Elem) (m : EMeta)
        (t r : Elem),
        occursAny t po = false → occursAny t c = false → pyEq hd t = true →
        pyEq (.phrase pt fm pm hd c po m) t = false →
        replaceElement (.phrase pt fm pm hd c po m) t r
          = (true, .phrase pt fm pm r c po m)) ∧
    (∀ (pt : PType) (fm pm : List Elem) (hd : Elem) (c po : List Elem) (m : EMeta)
        (t r : Elem) (i j : Nat) (oi oj : Elem),
        occursAny t po = false → occursAny t c = false → pyEq hd t = false →
        pm.get? i = some oi → pyEq oi t = true → i < j →
        pm.get? j = some oj → pyEq oj t = true →
        (∀ k ok, pm.get? k = some ok → j < k → occursScan t ok = false) →
        pyEq (.phrase pt fm pm hd c po m) t = false →
        replaceElement (.phrase pt fm pm hd c po m) t r
          = (true, .phrase pt fm (pm.set j r) hd c po m)) ∧
    (∀ (sp : Elem) (fm pm : List Elem) (hd : Elem) (c po : List Elem) (m : EMeta)
        (t r : Elem),
        occursAny t po = false → occursAny t c = false → pyEq hd t = false →
        occursAny t pm = false → pyEq sp t = true →
        pyEq (.nounPhrase sp fm pm hd c po m) t = false →
        replaceElement (.nounPhrase sp fm pm hd c po m) t r
          = (true, .nounPhrase r fm pm hd c po m)) := by
  refine ⟨?_, ?_, ?_, ?_, ?_, ?_⟩
  · intro pt fm pm hd c po m t r i j oi oj hgi hmi hij hgj hmj hafter hroot
    have hs := scanRev_replaces_last t r po j oj hgj hmj hafter
    simp [replaceElement, hroot, replaceBody, hs]
  · intro sp fm pm hd c po m t r i j oi oj hgi hmi hij hgj hmj hafter hroot
    have hs := scanRev_replaces_last t r po j oj hgj hmj hafter
    simp [replaceElement, hroot, replaceBody, hs]
  · intro pt fm pm hd c po m t r i j oi oj hpo hgi hmi hij hgj hmj hafter hroot
    have h0 := scanRev_none_of_occursAny_false t r po hpo
    have hs := scanRev_replaces_last t r c j oj hgj hmj hafter
    simp [replaceElement, hroot, replaceBody, h0, hs]
  · intro pt fm pm hd c po m t r hpo hc hhd hroot
    have h0 := scanRev_none_of_occursAny_false t r po hpo
    have h1 := scanRev_none_of_occursAny_false t r c hc
    simp [replaceElement, hroot, replaceBody, h0, h1, hhd]
  · intro pt fm pm hd c po m t r i j oi oj hpo hc hhd hgi hmi hij hgj hmj hafter hroot
    have h0 := scanRev_none_of_occursAny_false t r po hpo
    have h1 := scanRev_none_of_occursAny_false t r c hc
    have hs := scanRev_replaces_last t r pm j oj hgj hmj hafter
    simp [replaceElement, hroot, replaceBody, h0, h1, hhd, hs]
  · intro sp fm pm hd c po m t r hpo hc hhd hpm hsp hroot
    have h0 := scanRev_none_of_occursAny_false t r po hpo
    have h1 := scanRev_none_of_occursAny_false t r c hc
    have h2 := scanRev_none_of_occursAny_false t r pm hpm
    simp [replaceElement, hroot, replaceBody, h0, h1, h2, hhd, hsp]

/-- Witness for C5: the scan-order contract evaluated at concrete inputs,
one per scenario — post-modifiers of a phrase and of a noun phrase (index
1 beats index 0), complements, head, pre-modifiers, and the noun-phrase
specifier. -/
theorem c5_scan_order_witness :
    replaceElement phTwoMatches sMatch sRepl
      = (true, .phrase .generic [] [] blankElem [] [sMatch, sRepl] meta0) ∧
    replaceElement npPo2 sMatch sRepl
      = (true, .nounPhrase blankElem [] [] blankElem [] [sMatch, sRepl] meta0) ∧
    replaceElement phCompl2 sMatch sRepl
      = (true, .phrase .generic [] [] blankElem [sMatch, sRepl] [] meta0) ∧
    replaceElement phHeadMatch sMatch sRepl
      = (true, .phrase .generic [] [] sRepl [] [] meta0) ∧
    replaceElement phPre2 sMatch sRepl
      = (true, .phrase .generic [] [sMatch, sRepl] blankElem [] [] meta0) ∧
    replaceElement npSpecMatch sMatch sRepl
      = (true, .nounPhrase sRepl [] [] blankElem [] [] meta0) := by
  have hafter : ∀ k ok, [sMatch, sMatch].get? k = some ok → 1 < k →
      occursScan sMatch ok = false := by
    intro k ok hk hlt
    match k, hlt with
    | k + 2, _ => simp [List.get?] at hk
  refine ⟨?_, ?_, ?_, ?_, ?_, ?_⟩
  · have h := c5_scan_order.1 .generic [] [] blankElem [] [sMatch, sMatch] meta0
      sMatch sRepl 0 1 sMatch sMatch rfl rfl (by omega) rfl rfl hafter rfl
    simpa [List.set] using h
  · have h := c5_scan_order.2.1 blankElem [] [] blankElem [] [sMatch, sMatch] meta0
      sMatch sRepl 0 1 sMatch sMatch rfl rfl (by omega) rfl rfl hafter rfl
    simpa [List.set] using h
  · have h := c5_scan_order.2.2.1 .generic [] [] blankElem [sMatch, sMatch] [] meta0
      sMatch sRepl 0 1 sMatch sMatch rfl rfl rfl (by omega) rfl rfl hafter rfl
    simpa [List.set] using h
  · exact c5_scan_order.2.2.2.1 .generic [] [] sMatch [] [] meta0
      sMatch sRepl rfl rfl rfl rfl
  · have h := c5_scan_order.2.2.2.2.1 .generic [] [sMatch, sMatch] blankElem [] [] meta0
      sMatch sRepl 0 1 sMatch sMatch rfl rfl rfl rfl rfl (by omega) rfl rfl hafter rfl
    simpa [List.set] using h
  · exact c5_scan_order.2.2.2.2.2 sMatch [] [] blankElem [] [] meta0
      sMatch sRepl rfl rfl rfl rfl rfl rfl

/-- Every element has positive depth. -/
theorem depth_pos : ∀ e : Elem, 1 ≤ depth e := by
  intro e
  cases e <;> simp [depth]

/-- A list member is no deeper than the list. -/
theorem depth_le_depthL : ∀ (l : List Elem) (o : Elem), o ∈ l → depth o ≤ depthL l := by
  intro l
  induction l with
  | nil => intro o h; cases h
  | cons x xs ih =>
    intro o h
    rcases List.mem_cons.mp h with rfl | h
    · simp only [depthL]; omega
    · have := ih o h
      simp only [depthL]; omega

/-- Membership in the subtree nodes of a slot list is membership in the
subtree of one of its elements. -/
theorem mem_nodesL_iff : ∀ (l : List Elem) (y : Elem),
    y ∈ nodesL l ↔ ∃ o ∈ l, y ∈ nodes o := by
  intro l y
  induction l with
  | nil => simp [nodesL]
  | cons x xs ih =>
    simp only [nodesL, List.mem_append, ih, List.mem_cons]
    constructor
    · rintro (h | ⟨o, ho, hy⟩)
      · exact ⟨x, Or.inl rfl, h⟩
      · exact ⟨o, Or.inr ho, hy⟩
    · rintro ⟨o, rfl | ho, hy⟩
      · exact Or.inl hy
      · exact Or.inr ⟨o, ho, hy⟩

mutual
/-- A subtree node is in its own node set (it is never a bare
placeholder). -/
theorem mem_nodes_self : ∀ (o y : Elem), y ∈ nodes o → y ∈ nodes y
  | .element _, y => by intro h; simp [nodes] at h
  | .string v m, y => by
      intro h
      simp only [nodes, List.mem_singleton] at h
      subst h; simp [nodes]
  | .word w p b m, y => by
      intro h
      simp only [nodes, List.mem_singleton] at h
      subst h; simp [nodes]
  | .var i vl m, y => by
      intro h
      simp only [nodes, List.mem_singleton] at h
      subst h; simp [nodes]
  | .coordination co cj pm c po m, y => by
      intro h
      simp only [nodes, List.mem_cons] at h
      rcases h with rfl | h
      · simp [nodes]
      · exact mem_nodesL_self co y h
  | .phrase pt fm pm hd c po m, y => by
      intro h
      simp only [nodes, List.mem_cons, List.mem_append, or_assoc] at h
      rcases h with rfl | h | h | h | h | h
      · simp [nodes]
      · exact mem_nodesL_self fm y h
      · exact mem_nodesL_self pm y h
      · exact mem_nodes_self hd y h
      · exact mem_nodesL_self c y h
      · exact mem_nodesL_self po y h
  | .nounPhrase sp fm pm hd c po m, y => by
      intro h
      simp only [nodes, List.mem_cons, List.mem_append, or_assoc] at h
      rcases h with rfl | h | h | h | h | h | h
      · simp [nodes]
      · exact mem_nodes_self sp y h
      · exact mem_nodesL_self fm y h
      · exact mem_nodesL_self pm y h
      · exact mem_nodes_self hd y h
      · exact mem_nodesL_self c y h
      · exact mem_nodesL_self po y h
  | .clause fm pm sb vp c po m, y => by
      intro h
      simp only [nodes, List.mem_cons, List.mem_append, or_assoc] at h
      rcases h with rfl | h | h | h | h | h
      · simp [nodes]
      · exact mem_nodesL_self pm y h
      · exact mem_nodes_self sb y h
      · exact mem_nodes_self vp y h
      · exact mem_nodesL_self c y h
      · exact mem_nodesL_self po y h

/-- List version of `mem_nodes_self`. -/
theorem mem_nodesL_self : ∀ (l : List Elem) (y : Elem), y ∈ nodesL l → y ∈ nodes y
  | [], y => by intro h; simp [nodesL] at h
  | x :: xs, y => by
      intro h
      rcases List.mem_append.mp h with h | h
      · exact mem_nodes_self x y h
      · exact mem_nodesL_self xs y h
end

mutual
/-- Subtree membership is transitive. -/
theorem nodes_trans : ∀ (o x : Elem), x ∈ nodes o → ∀ y, y ∈ nodes x → y ∈ nodes o
  | .element _, x => by intro h; simp [nodes] at h
  | .string v m, x => by
      intro h y hy
      simp only [nodes, List.mem_singleton] at h
      subst h; exact hy
  | .word w p b m, x => by
      intro h y hy
      simp only [nodes, List.mem_singleton] at h
      subst h; exact hy
  | .var i vl m, x => by
      intro h y hy
      simp only [nodes, List.mem_singleton] at h
      subst h; exact hy
  | .coordination co cj pm c po m, x => by
      intro h y hy
      simp only [nodes, List.mem_cons] at h ⊢
      rcases h with rfl | h
      · simp only [nodes, List.mem_cons] at hy
        exact hy
      · exact Or.inr (nodesL_trans co x h y hy)
  | .phrase pt fm pm hd c po m, x => by
      intro h y hy
      simp only [nodes, List.mem_cons, List.mem_append, or_assoc] at h ⊢
      rcases h with rfl | h | h | h | h | h
      · simp only [nodes, List.mem_cons, List.mem_append, or_assoc] at hy
        exact hy
      · exact Or.inr (Or.inl (nodesL_trans fm x h y hy))
      · exact Or.inr (Or.inr (Or.inl (nodesL_trans pm x h y hy)))
      · exact Or.inr (Or.inr (Or.inr (Or.inl (nodes_trans hd x h y hy))))
      · exact Or.inr (Or.inr (Or.inr (Or.inr (Or.inl (nodesL_trans c x h y hy)))))
      · exact Or.inr (Or.inr (Or.inr (Or.inr (Or.inr (nodesL_trans po x h y hy)))))
  | .nounPhrase sp fm pm hd c po m, x => by
      intro h y hy
      simp only [nodes, List.mem_cons, List.mem_append, or_assoc] at h ⊢
      rcases h with rfl | h | h | h | h | h | h
      · simp only [nodes, List.mem_cons, List.mem_append, or_assoc] at hy
        exact hy
      · exact Or.inr (Or.inl (nodes_trans sp x h y hy))
      · exact Or.inr (Or.inr (Or.inl (nodesL_trans fm x h y hy)))
      · exact Or.inr (Or.inr (Or.inr (Or.inl (nodesL_trans pm x h y hy))))
      · exact Or.inr (Or.inr (Or.inr (Or.inr (Or.inl (nodes_trans hd x h y hy)))))
      · exact Or.inr (Or.inr (Or.inr (Or.inr (Or.inr (Or.inl (nodesL_trans c x h y hy))))))
      · exact Or.inr (Or.inr (Or.inr (Or.inr (Or.inr (Or.inr (nodesL_trans po x h y hy))))))
  | .clause fm pm sb vp c po m, x => by
      intro h y hy
      simp only [nodes, List.mem_cons, List.mem_append, or_assoc] at h ⊢
      rcases h with rfl | h | h | h | h | h
      · simp only [nodes, List.mem_cons, List.mem_append, or_assoc] at hy
        exact hy
      · exact Or.inr (Or.inl (nodesL_trans pm x h y hy))
      · exact Or.inr (Or.inr (Or.inl (nodes_trans sb x h y hy)))
      · exact Or.inr (Or.inr (Or.inr (Or.inl (nodes_trans vp x h y hy))))
      · exact Or.inr (Or.inr (Or.inr (Or.inr (Or.inl (nodesL_trans c x h y hy)))))
      · exact Or.inr (Or.inr (Or.inr (Or.inr (Or.inr (nodesL_trans po x h y hy)))))

/-- List version of `nodes_trans`. -/
theorem nodesL_trans : ∀ (l : List Elem) (x : Elem), x ∈ nodesL l →
    ∀ y, y ∈ nodes x → y ∈ nodesL l
  | [], x => by intro h; simp [nodesL] at h
  | a :: as_, x => by
      intro h y hy
      rcases List.mem_append.mp h with h | h
      · exact List.mem_append.mpr (Or.inl (nodes_trans a x h y hy))
      · exact List.mem_append.mpr (Or.inr (nodesL_trans as_ x h y hy))
end

mutual
/-- A subtree node is no deeper than the root of its subtree. -/
theorem depth_of_mem_nodes : ∀ (o y : Elem), y ∈ nodes o → depth y ≤ depth o
  | .element _, y => by intro h; simp [nodes] at h
  | .string v m, y => by
      intro h
      simp only [nodes, List.mem_singleton] at h
      subst h; exact le_refl _
  | .word w p b m, y => by
      intro h
      simp only [nodes, List.mem_singleton] at h
      subst h; exact le_refl _
  | .var i vl m, y => by
      intro h
      simp only [nodes, List.mem_singleton] at h
      subst h; exact le_refl _
  | .coordination co cj pm c po m, y => by
      intro h
      simp only [nodes, List.mem_cons] at h
      rcases h with rfl | h
      · exact le_refl _
      · have := depth_of_mem_nodesL co y h
        simp only [depth]; omega
  | .phrase pt fm pm hd c po m, y => by
      intro h
      simp only [nodes, List.mem_cons, List.mem_append, or_assoc] at h
      rcases h with rfl | h | h | h | h | h
      · exact le_refl _
      · have := depth_of_mem_nodesL fm y h
        simp only [depth]; omega
      · have := depth_of_mem_nodesL pm y h
        simp only [depth]; omega
      · have := depth_of_mem_nodes hd y h
        simp only [depth]; omega
      · have := depth_of_mem_nodesL c y h
        simp only [depth]; omega
      · have := depth_of_mem_nodesL po y h
        simp only [depth]; omega
  | .nounPhrase sp fm pm hd c po m, y => by
      intro h
      simp only [nodes, List.mem_cons, List.mem_append, or_assoc] at h
      rcases h with rfl | h | h | h | h | h | h
      · exact le_refl _
      · have := depth_of_mem_nodes sp y h
        simp only [depth]; omega
      · have := depth_of_mem_nodesL fm y h
        simp only [depth]; omega
      · have := depth_of_mem_nodesL pm y h
        simp only [depth]; omega
      · have := depth_of_mem_nodes hd y h
        simp only [depth]; omega
      · have := depth_of_mem_nodesL c y h
        simp only [depth]; omega
      · have := depth_of_mem_nodesL po y h
        simp only [depth]; omega
  | .clause fm pm sb vp c po m, y => by
      intro h
      simp only [nodes, List.mem_cons, List.mem_append, or_assoc] at h
      rcases h with rfl | h | h | h | h | h
      · exact le_refl _
      · have := depth_of_mem_nodesL pm y h
        simp only [depth]; omega
      · have := depth_of_mem_nodes sb y h
        simp only [depth]; omega
      · have := depth_of_mem_nodes vp y h
        simp only [depth]; omega
      · have := depth_of_mem_nodesL c y h
        simp only [depth]; omega
      · have := depth_of_mem_nodesL po y h
        simp only [depth]; omega

/-- List version of `depth_of_mem_nodes`. -/
theorem depth_of_mem_nodesL : ∀ (l : List Elem) (y : Elem), y ∈ nodesL l → depth y ≤ depthL l
  | [], y => by intro h; simp [nodesL] at h
  | x :: xs, y => by
      intro h
      rcases List.mem_append.mp h with h | h
      · have := depth_of_mem_nodes x y h
        simp only [depthL]; omega
      · have := depth_of_mem_nodesL xs y h
        simp only [depthL]; omega
end

/-- The double expansion `for x in o.constituents(): yield from
x.constituents()` yields, as a set, exactly the subtree nodes of the slot
element, given the traversal is exact below the fuel. -/
theorem dblElem_mem_iff (f : Nat)
    (ih : ∀ e, depth e ≤ f → ∀ y, (y ∈ consF f e ↔ y ∈ nodes e))
    (o : Elem) (ho : depth o ≤ f) (y : Elem) :
    (y ∈ (consF f o).flatMap (fun x => consF f x) ↔ y ∈ nodes o) := by
  constructor
  · intro h
    obtain ⟨x, hx, hy⟩ := List.mem_flatMap.mp h
    have hxn : x ∈ nodes o := (ih o ho x).mp hx
    have hdx : depth x ≤ depth o := depth_of_mem_nodes o x hxn
    have hyn : y ∈ nodes x := (ih x (le_trans hdx ho) y).mp hy
    exact nodes_trans o x hxn y hyn
  · intro h
    have hyy : y ∈ nodes y := mem_nodes_self o y h
    have hdy : depth y ≤ depth o := depth_of_mem_nodes o y h
    exact List.mem_flatMap.mpr ⟨y, (ih o ho y).mpr h, (ih y (le_trans hdy ho) y).mpr hyy⟩

/-- Slot-list version of `dblElem_mem_iff`. -/
theorem dblList_mem_iff (f : Nat)
    (ih : ∀ e, depth e ≤ f → ∀ y, (y ∈ consF f e ↔ y ∈ nodes e))
    (l : List Elem) (hl : depthL l ≤ f) (y : Elem) :
    (y ∈ l.flatMap (fun o => (consF f o).flatMap (fun x => consF f x)) ↔ y ∈ nodesL l) := by
  constructor
  · intro h
    obtain ⟨o, ho, hy⟩ := List.mem_flatMap.mp h
    have hdo : depth o ≤ f := le_trans (depth_le_depthL l o ho) hl
    exact (mem_nodesL_iff l y).mpr ⟨o, ho, (dblElem_mem_iff f ih o hdo y).mp hy⟩
  · intro h
    obtain ⟨o, ho, hy⟩ := (mem_nodesL_iff l y).mp h
    have hdo : depth o ≤ f := le_trans (depth_le_depthL l o ho) hl
    exact List.mem_flatMap.mpr ⟨o, ho, (dblElem_mem_iff f ih o hdo y).mpr hy⟩

/-- With fuel at least the depth, the traversal yields, as a set, exactly
the subtree nodes of the element. -/
theorem consF_mem_iff_nodes : ∀ (f : Nat), ∀ e : Elem, depth e ≤ f →
    ∀ y, (y ∈ consF f e ↔ y ∈ nodes e) := by
  intro f
  induction f with
  | zero =>
    intro e he
    exact absurd he (by have := depth_pos e; omega)
  | succ f ih =>
    intro e he y
    cases e with
    | element m => simp [consF, nodes]
    | string v m => simp [consF, nodes]
    | word w p b m => simp [consF, nodes]
    | var i vl m => simp [consF, nodes]
    | coordination co cj pm c po m =>
      have hco : depthL co ≤ f := by simp only [depth] at he; omega
      simp only [consF, nodes, List.mem_cons, List.mem_flatMap]
      constructor
      · rintro (rfl | ⟨o, ho, hy⟩)
        · exact Or.inl rfl
        · have hdo : depth o ≤ f := le_trans (depth_le_depthL co o ho) hco
          exact Or.inr ((mem_nodesL_iff co y).mpr ⟨o, ho, (ih o hdo y).mp hy⟩)
      · rintro (rfl | h)
        · exact Or.inl rfl
        · obtain ⟨o, ho, hy⟩ := (mem_nodesL_iff co y).mp h
          have hdo : depth o ≤ f := le_trans (depth_le_depthL co o ho) hco
          exact Or.inr ⟨o, ho, (ih o hdo y).mpr hy⟩
    | phrase pt fm pm hd c po m =>
      have hb : depthL fm ≤ f ∧ depthL pm ≤ f ∧ depth hd ≤ f ∧ depthL c ≤ f ∧
          depthL po ≤ f := by simp only [depth] at he; omega
      simp only [consF, nodes, List.mem_cons, List.mem_append, or_assoc]
      rw [dblList_mem_iff f ih fm hb.1 y, dblList_mem_iff f ih pm hb.2.1 y,
        dblElem_mem_iff f ih hd hb.2.2.1 y, dblList_mem_iff f ih c hb.2.2.2.1 y,
        dblList_mem_iff f ih po hb.2.2.2.2 y]
    | nounPhrase sp fm pm hd c po m =>
      have hb : depth sp ≤ f ∧ depthL fm ≤ f ∧ depthL pm ≤ f ∧ depth hd ≤ f ∧
          depthL c ≤ f ∧ depthL po ≤ f := by simp only [depth] at he; omega
      simp only [consF, nodes, List.mem_cons, List.mem_append, or_assoc]
      rw [dblElem_mem_iff f ih sp hb.1 y, dblList_mem_iff f ih fm hb.2.1 y,
        dblList_mem_iff f ih pm hb.2.2.1 y, dblElem_mem_iff f ih hd hb.2.2.2.1 y,
        dblList_mem_iff f ih c hb.2.2.2.2.1 y, dblList_mem_iff f ih po hb.2.2.2.2.2 y]
    | clause fm pm sb vp c po m =>
      have hb : depthL pm ≤ f ∧ depth sb ≤ f ∧ depth vp ≤ f ∧ depthL c ≤ f ∧
          depthL po ≤ f := by simp only [depth] at he; omega
      simp only [consF, nodes, List.mem_cons, List.mem_append, or_assoc]
      rw [dblList_mem_iff f ih pm hb.1 y, ih sb hb.2.1 y, ih vp hb.2.2.1 y,
        dblList_mem_iff f ih c hb.2.2.2.1 y, dblList_mem_iff f ih po hb.2.2.2.2 y]

/-- The `constituents()` sequence visits, as a set, exactly the subtree
nodes of the element. -/
theorem constituents_mem_iff (e y : Elem) : y ∈ constituents e ↔ y ∈ nodes e :=
  consF_mem_iff_nodes (depth e) e (le_refl _) y

/-- Every non-placeholder element yields itself first. -/
theorem constituents_head (e : Elem) (h : isBare e = false) :
    (constituents e).head? = some e := by
  cases e with
  | element m => simp [isBare] at h
  | string v m => rfl
  | word w p b m => rfl
  | var i vl m => rfl
  | coordination co cj pm c po m => simp [constituents, depth, consF]
  | phrase pt fm pm hd c po m => simp [constituents, depth, consF]
  | nounPhrase sp fm pm hd c po m => simp [constituents, depth, consF]
  | clause fm pm sb vp c po m => simp [constituents, depth, consF]

/-- Congruence of `flatMap` under pointwise equality on the list. -/
theorem flatMap_congr {α β : Type} {l : List α} {f g : α → List β}
    (h : ∀ x ∈ l, f x = g x) : l.flatMap f = l.flatMap g := by
  induction l with
  | nil => rfl
  | cons x xs ih =>
    simp only [List.flatMap_cons]
    rw [h x (List.mem_cons_self x xs), ih (fun y hy => h y (List.mem_cons_of_mem x hy))]

/-- Fuel irrelevance of the double expansion of one slot element, given
fuel irrelevance below `f`. -/
theorem dbl_stable (f g : Nat)
    (ih : ∀ e, depth e ≤ f → ∀ g2, depth e ≤ g2 → consF f e = consF g2 e)
    (o : Elem) (hof : depth o ≤ f) (hog : depth o ≤ g) :
    (consF f o).flatMap (fun x => consF f x)
      = (consF g o).flatMap (fun x => consF g x) := by
  have h1 : consF f o = consF g o := ih o hof g hog
  rw [← h1]
  apply flatMap_congr
  intro x hx
  have hxn : x ∈ nodes o := (consF_mem_iff_nodes f o hof x).mp hx
  have hdx := depth_of_mem_nodes o x hxn
  exact ih x (le_trans hdx hof) g (le_trans hdx hog)

/-- Slot-list version of `dbl_stable`. -/
theorem dblL_stable (f g : Nat)
    (ih : ∀ e, depth e ≤ f → ∀ g2, depth e ≤ g2 → consF f e = consF g2 e)
    (l : List Elem) (hlf : depthL l ≤ f) (hlg : depthL l ≤ g) :
    l.flatMap (fun o => (consF f o).flatMap (fun x => consF f x))
      = l.flatMap (fun o => (consF g o).flatMap (fun x => consF g x)) :=
  flatMap_congr (fun o ho => dbl_stable f g ih o
    (le_trans (depth_le_depthL l o ho) hlf) (le_trans (depth_le_depthL l o ho) hlg))

/-- The traversal does not depend on the fuel once the fuel reaches the
depth: any two sufficient fuels produce the same sequence. -/
theorem consF_stable : ∀ (f : Nat) (e : Elem), depth e ≤ f → ∀ (g : Nat), depth e ≤ g →
    consF f e = consF g e := by
  intro f
  induction f with
  | zero =>
    intro e he
    exact absurd he (by have := depth_pos e; omega)
  | succ f ih =>
    intro e he g hg
    cases g with
    | zero => exact absurd hg (by have := depth_pos e; omega)
    | succ g =>
      cases e with
      | element m => simp [consF]
      | string v m => simp [consF]
      | word w p b m => simp [consF]
      | var i vl m => simp [consF]
      | coordination co cj pm c po m =>
        simp only [consF]
        congr 1
        apply flatMap_congr
        intro o ho
        have hdo := depth_le_depthL co o ho
        have h1 : depth o ≤ f := by simp only [depth] at he; omega
        have h2 : depth o ≤ g := by simp only [depth] at hg; omega
        exact ih o h1 g h2
      | phrase pt fm pm hd c po m =>
        have hbf : depthL fm ≤ f ∧ depthL pm ≤ f ∧ depth hd ≤ f ∧ depthL c ≤ f ∧
            depthL po ≤ f := by simp only [depth] at he; omega
        have hbg : depthL fm ≤ g ∧ depthL pm ≤ g ∧ depth hd ≤ g ∧ depthL c ≤ g ∧
            depthL po ≤ g := by simp only [depth] at hg; omega
        simp only [consF]
        rw [dblL_stable f g ih fm hbf.1 hbg.1, dblL_stable f g ih pm hbf.2.1 hbg.2.1,
          dbl_stable f g ih hd hbf.2.2.1 hbg.2.2.1,
          dblL_stable f g ih c hbf.2.2.2.1 hbg.2.2.2.1,
          dblL_stable f g ih po hbf.2.2.2.2 hbg.2.2.2.2]
      | nounPhrase sp fm pm hd c po m =>
        have hbf : depth sp ≤ f ∧ depthL fm ≤ f ∧ depthL pm ≤ f ∧ depth hd ≤ f ∧
            depthL c ≤ f ∧ depthL po ≤ f := by simp only [depth] at he; omega
        have hbg : depth sp ≤ g ∧ depthL fm ≤ g ∧ depthL pm ≤ g ∧ depth hd ≤ g ∧
            depthL c ≤ g ∧ depthL po ≤ g := by simp only [depth] at hg; omega
        simp only [consF]
        rw [dbl_stable f g ih sp hbf.1 hbg.1, dblL_stable f g ih fm hbf.2.1 hbg.2.1,
          dblL_stable f g ih pm hbf.2.2.1 hbg.2.2.1,
          dbl_stable f g ih hd hbf.2.2.2.1 hbg.2.2.2.1,
          dblL_stable f g ih c hbf.2.2.2.2.1 hbg.2.2.2.2.1,
          dblL_stable f g ih po hbf.2.2.2.2.2 hbg.2.2.2.2.2]
      | clause fm pm sb vp c po m =>
        have hbf : depthL pm ≤ f ∧ depth sb ≤ f ∧ depth vp ≤ f ∧ depthL c ≤ f ∧
            depthL po ≤ f := by simp only [depth] at he; omega
        have hbg : depthL pm ≤ g ∧ depth sb ≤ g ∧ depth vp ≤ g ∧ depthL c ≤ g ∧
            depthL po ≤ g := by simp only [depth] at hg; omega
        simp only [consF]
        rw [dblL_stable f g ih pm hbf.1 hbg.1, ih sb hbf.2.1 g hbg.2.1,
          ih vp hbf.2.2.1 g hbg.2.2.1, dblL_stable f g ih c hbf.2.2.2.1 hbg.2.2.2.1,
          dblL_stable f g ih po hbf.2.2.2.2 hbg.2.2.2.2]

/-- At sufficient fuel the double expansion of one slot element is its
`expand`. -/
theorem expand_eq (M : Nat) (o : Elem) (ho : depth o ≤ M) :
    (consF M o).flatMap (fun x => consF M x) = expand o := by
  simp only [expand, constituents]
  have h1 : consF M o = consF (depth o) o := consF_stable M o ho (depth o) (le_refl _)
  rw [h1]
  apply flatMap_congr
  intro x hx
  have hxn : x ∈ nodes o := (consF_mem_iff_nodes (depth o) o (le_refl _) x).mp hx
  have hdx := depth_of_mem_nodes o x hxn
  exact consF_stable M x (le_trans hdx ho) (depth x) (le_refl _)

/-- At sufficient fuel the double expansion of a slot list is its
`expandL`. -/
theorem expandL_eq (M : Nat) (l : List Elem) (hl : depthL l ≤ M) :
    l.flatMap (fun o => (consF M o).flatMap (fun x => consF M x)) = expandL l := by
  simp only [expandL]
  exact flatMap_congr (fun o ho =>
    expand_eq M o (le_trans (depth_le_depthL l o ho) hl))

/-- The yield order of `Phrase.constituents`: itself, then the
front-modifiers, pre-modifiers, head and complement and post-modifier
slots, each list left-to-right and each element double-expanded. -/
theorem constituents_eq_phrase (pt : PType) (fm pm : List Elem) (hd : Elem)
    (c po : List Elem) (m : EMeta) :
    constituents (.phrase pt fm pm hd c po m)
      = .phrase pt fm pm hd c po m ::
        (expandL fm ++ expandL pm ++ expand hd ++ expandL c ++ expandL po) := by
  have h1 : depthL fm ≤
      max (depthL fm) (max (depthL pm) (max (depth hd) (max (depthL c) (depthL po)))) := by
    omega
  have h2 : depthL pm ≤
      max (depthL fm) (max (depthL pm) (max (depth hd) (max (depthL c) (depthL po)))) := by
    omega
  have h3 : depth hd ≤
      max (depthL fm) (max (depthL pm) (max (depth hd) (max (depthL c) (depthL po)))) := by
    omega
  have h4 : depthL c ≤
      max (depthL fm) (max (depthL pm) (max (depth hd) (max (depthL c) (depthL po)))) := by
    omega
  have h5 : depthL po ≤
      max (depthL fm) (max (depthL pm) (max (depth hd) (max (depthL c) (depthL po)))) := by
    omega
  simp only [constituents, depth, consF]
  rw [expandL_eq _ fm h1, expandL_eq _ pm h2, expand_eq _ hd h3, expandL_eq _ c h4,
    expandL_eq _ po h5]

/-- The yield order of `NounPhrase.constituents`: itself, then its
specifier (double-expanded) before the front-modifiers, then the `Phrase`
slots. -/
theorem constituents_eq_nounPhrase (sp : Elem) (fm pm : List Elem) (hd : Elem)
    (c po : List Elem) (m : EMeta) :
    constituents (.nounPhrase sp fm pm hd c po m)
      = .nounPhrase sp fm pm hd c po m ::
        (expand sp ++ expandL fm ++ expandL pm ++ expand hd ++ expandL c ++ expandL po) := by
  have h0 : depth sp ≤ max (depth sp) (max (depthL fm)
      (max (depthL pm) (max (depth hd) (max (depthL c) (depthL po))))) := by omega
  have h1 : depthL fm ≤ max (depth sp) (max (depthL fm)
      (max (depthL pm) (max (depth hd) (max (depthL c) (depthL po))))) := by omega
  have h2 : depthL pm ≤ max (depth sp) (max (depthL fm)
      (max (depthL pm) (max (depth hd) (max (depthL c) (depthL po))))) := by omega
  have h3 : depth hd ≤ max (depth sp) (max (depthL fm)
      (max (depthL pm) (max (depth hd) (max (depthL c) (depthL po))))) := by omega
  have h4 : depthL c ≤ max (depth sp) (max (depthL fm)
      (max (depthL pm) (max (depth hd) (max (depthL c) (depthL po))))) := by omega
  have h5 : depthL po ≤ max (depth sp) (max (depthL fm)
      (max (depthL pm) (max (depth hd) (max (depthL c) (depthL po))))) := by omega
  simp only [constituents, depth, consF]
  rw [expand_eq _ sp h0, expandL_eq _ fm h1, expandL_eq _ pm h2, expand_eq _ hd h3,
    expandL_eq _ c h4, expandL_eq _ po h5]

/-- The yield order of `Clause.constituents`: itself, pre-modifiers,
subject, predicate, complements, post-modifiers — front-modifiers are not
visited, and subject and predicate are expanded once (not doubly). -/
theorem constituents_eq_clause (fm pm : List Elem) (sb vp : Elem)
    (c po : List Elem) (m : EMeta) :
    constituents (.clause fm pm sb vp c po m)
      = .clause fm pm sb vp c po m ::
        (expandL pm ++ constituents sb ++ constituents vp ++ expandL c ++ expandL po) := by
  have h1 : depthL pm ≤ max (depthL fm) (max (depthL pm)
      (max (depth sb) (max (depth vp) (max (depthL c) (depthL po))))) := by omega
  have h2 : depth sb ≤ max (depthL fm) (max (depthL pm)
      (max (depth sb) (max (depth vp) (max (depthL c) (depthL po))))) := by omega
  have h3 : depth vp ≤ max (depthL fm) (max (depthL pm)
      (max (depth sb) (max (depth vp) (max (depthL c) (depthL po))))) := by omega
  have h4 : depthL c ≤ max (depthL fm) (max (depthL pm)
      (max (depth sb) (max (depth vp) (max (depthL c) (depthL po))))) := by omega
  have h5 : depthL po ≤ max (depthL fm) (max (depthL pm)
      (max (depth sb) (max (depth vp) (max (depthL c) (depthL po))))) := by omega
  simp only [constituents, depth, consF]
  rw [expandL_eq _ pm h1, expandL_eq _ c h4, expandL_eq _ po h5,
    consF_stable _ sb h2 (depth sb) (le_refl _),
    consF_stable _ vp h3 (depth vp) (le_refl _)]

/-- The yield order of `Coordination.constituents`: itself, then each
coordinate expanded once, in order. -/
theorem constituents_eq_coordination (co : List Elem) (cj : String)
    (pm c po : List Elem) (m : EMeta) :
    constituents (.coordination co cj pm c po m)
      = .coordination co cj pm c po m :: co.flatMap (fun o => constituents o) := by
  simp only [constituents, depth, consF]
  congr 1
  apply flatMap_congr
  intro o ho
  have hdo := depth_le_depthL co o ho
  exact consF_stable _ o (by omega) (depth o) (le_refl _)

/-- Claim C6 counterexample: a phrase whose front-modifier is itself a
phrase (`npRed`, headed by the word `wRed`) yields the nested word
*twice* — positions 2 and 3 of the sequence — because each slot element is
expanded through the double loop `for x in o.constituents(): yield from
x.constituents()`; so `constituents()` does not yield each subtree node
exactly once. -/
theorem c6_counterexample :
    constituents phNested = [phNested, npRed, wRed, wRed] ∧
    (constituents phNested).get? 2 = some wRed ∧
    (constituents phNested).get? 3 = some wRed :=
  ⟨rfl, rfl, rfl⟩

/-- Claim C6 as amended: `constituents()` yields the element itself
first, then the per-variant slots in the claimed fixed order — a `Phrase`
its front-modifiers, pre-modifiers, head, complements and post-modifiers;
a `NounPhrase` additionally its specifier before the front-modifiers; a
`Clause` its pre-modifiers, subject, predicate, complements and
post-modifiers; a `Coordination` each coordinate — each sub-list visited
left-to-right.  Each phrasal slot element is expanded through the double
loop `for x in o.constituents(): yield from x.constituents()` (`expand`),
so every subtree node is yielded at least once — the yield set is exactly
the per-variant subtree `nodes` — but a node nested below a phrasal slot
element can be yielded more than once, not exactly once. -/
theorem c6_constituents_coverage :
    (∀ e y, y ∈ constituents e ↔ y ∈ nodes e) ∧
    (∀ e, isBare e = false → (constituents e).head? = some e) ∧
    (∀ (pt : PType) (fm pm : List Elem) (hd : Elem) (c po : List Elem) (m : EMeta),
      constituents (.phrase pt fm pm hd c po m)
        = .phrase pt fm pm hd c po m ::
          (expandL fm ++ expandL pm ++ expand hd ++ expandL c ++ expandL po)) ∧
    (∀ (sp : Elem) (fm pm : List Elem) (hd : Elem) (c po : List Elem) (m : EMeta),
      constituents (.nounPhrase sp fm pm hd c po m)
        = .nounPhrase sp fm pm hd c po m ::
          (expand sp ++ expandL fm ++ expandL pm ++ expand hd ++ expandL c ++ expandL po)) ∧
    (∀ (fm pm : List Elem) (sb vp : Elem) (c po : List Elem) (m : EMeta),
      constituents (.clause fm pm sb vp c po m)
        = .clause fm pm sb vp c po m ::
          (expandL pm ++ constituents sb ++ constituents vp ++ expandL c ++ expandL po)) ∧
    (∀ (co : List Elem) (cj : String) (pm c po : List Elem) (m : EMeta),
      constituents (.coordination co cj pm c po m)
        = .coordination co cj pm c po m :: co.flatMap (fun o => constituents o)) :=
  ⟨constituents_mem_iff, fun e h => constituents_head e h, constituents_eq_phrase,
   constituents_eq_nounPhrase, constituents_eq_clause, constituents_eq_coordination⟩

/-- Witness for C6 at a concrete input: the nested-modifier phrase yields
itself first. -/
theorem c6_constituents_coverage_witness :
    (constituents phNested).head? = some phNested :=
  c6_constituents_coverage.2.1 phNested rfl
